import Mathlib

/-!
# modinfo (busybox, `modutils/modinfo.c`): tag scan, output records, module resolution

A shallow embedding of `modinfo.c`.  Bytes and machine integers are natural
numbers; `size_t` arithmetic is taken modulo `2 ^ w` for a word size `w`.
Strings are lists of bytes without their terminating NUL.  Calls of `display`,
of the module reader and of `bb_perror_msg` are recorded as events, and the
bytes on standard output are obtained from the events by `render`.
-/

namespace Modinfo

/-! ## Constants of `modinfo.c` -/

/-- `OPT_TAGS = (1 << 12) - 1`: the mask of the shortcut bits. -/
def OPT_TAGS : Nat := (1 <<< 12) - 1

/-- `OPT_F = (1 << 12)`: the bit of the free-form field name. -/
def OPT_F : Nat := 1 <<< 12

/-- `OPT_0 = (1 << 13)`: the bit tested by `display` for the NUL separator. -/
def OPT_0 : Nat := 1 <<< 13

/-- The bytes of a string literal. -/
def bytes (s : String) : List Nat := s.data.map Char.toNat

/-- The table `shortcuts[]` of `modinfo()`. -/
def shortcuts : List (List Nat) :=
  [bytes "filename", bytes "license", bytes "author", bytes "description",
   bytes "version", bytes "alias", bytes "srcversion", bytes "depends",
   bytes "uts_release", bytes "vermagic", bytes "parm", bytes "firmware"]

/-! ## The module image and the C library calls of the scan loop -/

/-- Modelled from the spec: `xmalloc_open_zipped_read_close` is not part of
`modinfo.c`.  It reads the possibly compressed file into a buffer of known
length; a value "is treated as ending at the first NUL byte after the `=`" also
in a truncated buffer, as the readers of libbb store one NUL byte after the `len`
bytes they read.  Offsets `0 .. len` are inside the block that was allocated,
every other offset is outside of it. -/
def image (buf : List Nat) : List Nat := buf ++ [0]

/-- The `size_t` subtraction `a - b`, modulo `2 ^ w`. -/
def size_sub (w a b : Nat) : Nat := (a % 2 ^ w + 2 ^ w - b % 2 ^ w) % 2 ^ w

/-- Result of `memchr`: a pointer (as an offset from `the_module`), `NULL`, or a
read that runs off the end of the block. -/
inductive Found where
  | hit (i : Nat)
  | null
  | overrun
  deriving DecidableEq, Repr

/-- Byte-by-byte `memchr` over the bytes `rest` that remain in the block from
offset `off` on: at most `n` bytes are examined. -/
def memchrAux (c : Nat) : List Nat → Nat → Nat → Found
  | [], n, _ => if n = 0 then .null else .overrun
  | b :: rest, n, off =>
    if n = 0 then .null
    else if b = c then .hit off
    else memchrAux c rest (n - 1) (off + 1)

/-- The call `memchr(the_module + off, c, n)`. -/
def memchr (mem : List Nat) (off c n : Nat) : Found :=
  memchrAux c (mem.drop off) n off

/-- The call `is_prefixed_with(the_module + off, key)` of libbb: the offset just
after the key when the bytes at `off` start with `key`, `none` (NULL) otherwise. -/
def is_prefixed_with (mem : List Nat) (off : Nat) : List Nat → Option Nat
  | [] => some off
  | k :: key => if mem[off]? = some k then is_prefixed_with mem (off + 1) key else none

/-- The C string that starts at offset `off`: the bytes up to the first NUL. -/
def cstring (mem : List Nat) (off : Nat) : List Nat :=
  (mem.drop off).takeWhile (fun b => b != 0)

/-- The call `strlen(the_module + off)`. -/
def strlen (mem : List Nat) (off : Nat) : Nat := (cstring mem off).length

/-! ## The scan loop of `modinfo()` (lines 110-127) -/

/-- How a scan ends.  `done`: `memchr` returned NULL.  `overrun`: `memchr` was
handed a count that reaches past the block.  `nullPattern`: the free-form bit is
set while `field` is NULL, and `*pattern` is evaluated.  `fuel`: the iteration
bound of the model was hit (for `scan` never the case, see
`scan_outcome_ne_fuel`). -/
inductive Outcome where
  | done
  | overrun
  | nullPattern
  | fuel
  deriving DecidableEq, Repr

/-- One iteration of the `while (1)` loop, started with `ptr = the_module + off`. -/
inductive Step where
  | stop (o : Outcome)
  | next (off : Nat)
  | emit (i : Nat) (value : List Nat) (off : Nat)
  deriving DecidableEq, Repr

/-- The byte `ptr[-1]` of line 120 for `ptr = the_module + i`.  For `i = 0` it is
not a byte of the block: the code reads what is stored just below the block the
reader returned, the byte `under`. -/
def byteBefore (under : Nat) (buf : List Nat) (i : Nat) : Nat :=
  if i = 0 then under else (image buf).getD (i - 1) 0

/-- The body of the `while (1)` loop for cursor offset `off`.  `emit i v off1`
stands for the call `display(ptr, pattern, ..)` on the value `v` of the match at
offset `i`, the loop going on at offset `off1`. -/
def scanStep (w under : Nat) (buf pat : List Nat) (off : Nat) : Step :=
  match memchr (image buf) off (pat.headD 0) (size_sub w buf.length off) with
  | .overrun => .stop .overrun
  | .null => .stop .done
  | .hit i =>
    match is_prefixed_with (image buf) i pat with
    | none => .next (i + 1)
    | some a =>
      if (image buf)[a]? = some 61 then
        if byteBefore under buf i &&& 0x7F = 0 then
          .emit i (cstring (image buf) (a + 1))
            (a + 1 + strlen (image buf) (a + 1) + 1)
        else .next (i + 1)
      else .next (i + 1)

/-- The iteration for cursor offset `off` evaluates `ptr[-1]` with
`ptr == the_module`: `memchr` finds the first byte of the pattern at offset 0,
the pattern is a prefix there and `=` follows, so line 120 is reached. -/
def readsBelow (w : Nat) (buf pat : List Nat) (off : Nat) : Bool :=
  match memchr (image buf) off (pat.headD 0) (size_sub w buf.length off) with
  | .hit i =>
    match is_prefixed_with (image buf) i pat with
    | none => false
    | some a => decide ((image buf)[a]? = some 61) && decide (i = 0)
  | _ => false

/-- What one scan did: the values handed to `display` with the offset of their
match, the cursor offset at every call of `memchr`, how the loop ended, and
whether the byte below the block was read. -/
structure ScanResult where
  out : List (Nat × List Nat)
  cursors : List Nat
  outcome : Outcome
  below : Bool
  deriving DecidableEq, Repr

/-- The `while (1)` loop, run for at most `fuel` iterations from offset `off`. -/
def scanLoop (w under : Nat) (buf pat : List Nat) : Nat → Nat → ScanResult
  | 0, _ => ⟨[], [], .fuel, false⟩
  | fuel + 1, off =>
    match scanStep w under buf pat off with
    | .stop o => ⟨[], [off], o, false⟩
    | .next off1 =>
      let r := scanLoop w under buf pat fuel off1
      ⟨r.out, off :: r.cursors, r.outcome, readsBelow w buf pat off || r.below⟩
    | .emit i v off1 =>
      let r := scanLoop w under buf pat fuel off1
      ⟨(i, v) :: r.out, off :: r.cursors, r.outcome, readsBelow w buf pat off || r.below⟩

/-- The scan of one pattern over the whole image: `ptr = the_module` and then
the loop.  `under` is the byte stored just below the block.  The cursor grows in
every iteration and stays within `len + 1`, so `len + 2` iterations are enough. -/
def scan (w under : Nat) (buf pat : List Nat) : ScanResult :=
  scanLoop w under buf pat (buf.length + 2) 0

/-! ## `display` and the events of a run -/

/-- The loop `while (n++ < 16) bb_putchar(' ')` of `display`, for the value of
`n` before the loop and run for at most the given number of iterations: the blanks
it writes. -/
def putBlanks : Nat → Nat → List Nat
  | 0, _ => []
  | fuel + 1, n => if n < 16 then 32 :: putBlanks fuel (n + 1) else []

/-- The function `display(data, pattern, flag)` under the option mask
`option_mask32`: the bytes it writes.  `printf("%s:", pattern)` returns
`n = |pattern| + 1`, and the loop `while (n++ < 16) bb_putchar(' ')` follows; it
writes a blank in at most 16 iterations. -/
def display (option_mask32 : Nat) (data pattern : List Nat) (flag : Bool) : List Nat :=
  (if flag then pattern ++ [58] ++ putBlanks 16 (pattern.length + 1) else [])
    ++ data ++ [if option_mask32 &&& OPT_0 ≠ 0 then 0 else 10]

/-- What a run of `modinfo()` does to the outside: a call of the module reader
`xmalloc_open_zipped_read_close(path, &len)`, a call `display(data, pattern, flag)`,
or the call `bb_perror_msg("")`. -/
inductive Event where
  | read (path : List Nat)
  | display (data pattern : List Nat) (flag : Bool)
  | perror
  deriving DecidableEq, Repr

/-- The events of a run and how it ended. -/
structure Run where
  events : List Event
  outcome : Outcome
  deriving DecidableEq, Repr

/-- Standard output of a list of events under the option mask. -/
def render (option_mask32 : Nat) : List Event → List Nat
  | [] => []
  | .display d p f :: es => display option_mask32 d p f ++ render option_mask32 es
  | _ :: es => render option_mask32 es

/-- The event is a call of `display`. -/
def isDisplay : Event → Bool
  | .display _ _ _ => true
  | _ => false

/-- The calls of `display` among the events. -/
def displays (es : List Event) : List Event := es.filter isDisplay

/-- The paths handed to the module reader, in call order. -/
def reads : List Event → List (List Nat)
  | [] => []
  | .read p :: es => p :: reads es
  | _ :: es => reads es

/-! ## `modinfo()` -/

/-- The structure `struct modinfo_env`: `field` is `none` for a NULL pointer. -/
structure modinfo_env where
  field : Option (List Nat)
  tags : Nat
  deriving DecidableEq, Repr

/-- The local `tags` of `modinfo()` after `if (field) tags |= OPT_F;`. -/
def localTags (env : modinfo_env) : Nat :=
  if env.field.isSome then env.tags ||| OPT_F else env.tags

/-- The loop `for (j = 1; (1<<j) & (OPT_TAGS + OPT_F); j++)` of `modinfo()`
from index `j` on, over the image `buf`, with the local `tags` (the free-form
bit already merged in). -/
def tagLoop (w under : Nat) (buf : List Nat) (field : Option (List Nat)) (tags : Nat) :
    Nat → Nat → Run
  | 0, _ => ⟨[], .fuel⟩
  | fuel + 1, j =>
    if (1 <<< j) &&& (OPT_TAGS + OPT_F) = 0 then ⟨[], .done⟩
    else if (1 <<< j) &&& tags = 0 then tagLoop w under buf field tags fuel (j + 1)
    else
      match (if (1 <<< j) &&& OPT_TAGS ≠ 0 then shortcuts[j]? else field) with
      | none => ⟨[], .nullPattern⟩
      | some pattern =>
        let r := scan w under buf pattern
        let shown := r.out.map
          (fun iv => Event.display iv.2 pattern (decide ((1 <<< j) ≠ tags)))
        match r.outcome with
        | .done =>
          let rest := tagLoop w under buf field tags fuel (j + 1)
          ⟨shown ++ rest.events, rest.outcome⟩
        | o => ⟨shown, o⟩

/-- The string `xasprintf("%s/%s/%s", CONFIG_DEFAULT_MODULES_DIR, version, path)`. -/
def versionedPath (dir version path : List Nat) : List Nat :=
  dir ++ [47] ++ version ++ [47] ++ path

/-- The string `xasprintf("%s/%s", CONFIG_DEFAULT_MODULES_DIR, path)`. -/
def flatPath (dir path : List Nat) : List Nat := dir ++ [47] ++ path

/-- Lines 77-98 of `modinfo()`: the module is read from `path`, then, for a path
that does not start with `/`, from `<dir>/<version>/<path>`, and, when
`DONT_USE_UTS_REL_FOLDER` is defined (`flat`), from `<dir>/<path>`.  `dir` is
`CONFIG_DEFAULT_MODULES_DIR`, `fs` is the reader (`none` for NULL).  The result is
the events of the attempts and the image that was read. -/
def acquire (flat : Bool) (dir : List Nat) (fs : List Nat → Option (List Nat))
    (path version : List Nat) : List Event × Option (List Nat) :=
  match fs path with
  | some m => ([.read path], some m)
  | none =>
    if path.head? = some 47 then ([.read path], none)
    else
      let fullpath := versionedPath dir version path
      match fs fullpath with
      | some m => ([.read path, .read fullpath], some m)
      | none =>
        if flat then
          let fullpath1 := flatPath dir path
          match fs fullpath1 with
          | some m => ([.read path, .read fullpath, .read fullpath1], some m)
          | none => ([.read path, .read fullpath, .read fullpath1, .perror], none)
        else ([.read path, .read fullpath, .perror], none)

/-- The function `modinfo(path, version, env)`. -/
def modinfo (w under : Nat) (flat : Bool) (dir : List Nat) (fs : List Nat → Option (List Nat))
    (path version : List Nat) (env : modinfo_env) : Run :=
  let named :=
    if env.tags &&& 1 ≠ 0 then
      [Event.display path (shortcuts.getD 0 []) (decide (1 ≠ env.tags))]
    else []
  match acquire flat dir fs path version with
  | (tried, none) => ⟨named ++ tried, .done⟩
  | (tried, some buf) =>
    let r := tagLoop w under buf env.field (localTags env) 13 1
    ⟨named ++ tried ++ r.events, r.outcome⟩

/-! ## Option parsing and the index pass of `modinfo_main` -/

/-- One option on the command line: a letter without argument, or `-F keyword`. -/
inductive Opt where
  | flag (c : Char)
  | field (keyword : List Nat)
  deriving DecidableEq, Repr

/-- The option string handed to `getopt32` by `modinfo_main`. -/
def optstring : String := "nladvAsDumpF:0"

/-- The option letters of an option string, in order (a `:` marks the letter
before it as taking an argument and is no letter itself). -/
def optLetters (s : String) : List Char := s.data.filter (fun c => c != ':')

/-- The position of a letter in a list of option letters. -/
def position (c : Char) : List Char → Option Nat
  | [] => none
  | x :: xs => if x = c then some 0 else (position c xs).map (fun k => k + 1)

/-- Modelled from the spec: `getopt32` of libbb is not part of `modinfo.c`.  Each
option letter sets the mask bit of its position in the option string, `-F` stores
its argument in `env.field`, and a letter that is not in the string ends the
program with the usage message (`none`).  The result is the mask, which is also
`option_mask32`, and the field. -/
def getopt32 : List Opt → Option (Nat × Option (List Nat))
  | [] => some (0, none)
  | .flag c :: rest =>
    if c = 'F' then none
    else
      match position c (optLetters optstring), getopt32 rest with
      | some k, some (m, f) => some (m ||| (1 <<< k), f)
      | _, _ => none
  | .field kw :: rest =>
    match position 'F' (optLetters optstring), getopt32 rest with
    | some k, some (m, f) => some (m ||| (1 <<< k), some (f.getD kw))
    | _, _ => none

/-- The environment built at line 158:
`env.tags = opts & OPT_TAGS ? opts & OPT_TAGS : OPT_TAGS`. -/
def mkEnv (opts : Nat) (field : Option (List Nat)) : modinfo_env :=
  ⟨field, if opts &&& OPT_TAGS ≠ 0 then opts &&& OPT_TAGS else OPT_TAGS⟩

/-- The call `last_char_is(s, c)` of libbb, as a test: the string is not empty
and its last byte is `c`. -/
def last_char_is (s : List Nat) (c : Nat) : Bool := s.getLast? == some c

/-- The loop `for (i = 0; argv[i]; i++)` of the index pass for one record with
module name `name` and path `path`: the paths `modinfo()` is called with, and
`argv` afterwards (a matching argument is replaced by the empty string).
`fnmatch a name` stands for `fnmatch(a, name, 0) == 0`. -/
def matchArgs (fnmatch : List Nat → List Nat → Bool) (name path : List Nat) :
    List (List Nat) → List (List Nat) × List (List Nat)
  | [] => ([], [])
  | a :: rest =>
    let r := matchArgs fnmatch name path rest
    if fnmatch a name then (path :: r.1, [] :: r.2) else (r.1, a :: r.2)

/-- The loop `while (config_read(parser, tokens, 2, 1, "# \t", PARSE_NORMAL))`
of `modinfo_main` over the first tokens of the lines of the index: the paths
`modinfo()` is called with, in call order, and `argv` afterwards.  `modname p`
stands for `filename2modname(bb_basename(p), name)`. -/
def indexPass (fnmatch : List Nat → List Nat → Bool) (modname : List Nat → List Nat) :
    List (List Nat) → List (List Nat) → List (List Nat) × List (List Nat)
  | [], argv => ([], argv)
  | tok :: lines, argv =>
    if last_char_is tok 58 then
      let path := tok.dropLast
      let r := matchArgs fnmatch (modname path) path argv
      let s := indexPass fnmatch modname lines r.2
      (r.1 ++ s.1, s.2)
    else indexPass fnmatch modname lines argv

/-- The loop after the label `no_modules_dep:` of `modinfo_main`: the arguments
`modinfo()` is called with, those with `argv[i][0] != 0`, in argument order. -/
def literalPass : List (List Nat) → List (List Nat)
  | [] => []
  | a :: rest => if a.head? = none then literalPass rest else a :: literalPass rest

/-- What a run of `modinfo_main` does: the environment it builds, the calls
`modinfo(path, version, &env)` it makes in call order (each call taken to return),
and its return value. -/
structure MainRun where
  env : modinfo_env
  calls : List (List Nat × List Nat)
  status : Nat
  deriving DecidableEq, Repr

/-- The function `modinfo_main`.  `flat` stands for `DONT_USE_UTS_REL_FOLDER`,
`release` for `uts.release`; `index` and `indexFlat` are the first tokens of the
lines of `<dir>/<release>/<depmod file>` and of `<dir>/<depmod file>`, `none` when
`config_open2` returns NULL.  The result is `none` when `getopt32` ends the
program with the usage message (a wrong option, or no argument: `"-1"`).
Modelled from the spec: `config_read` of libbb is not part of `modinfo.c`; without
`DONT_USE_UTS_REL_FOLDER` a dependency index that cannot be opened is "not fatal;
falls back to literal-path resolution only", so the loop over its lines does not
run. -/
def modinfo_main (flat : Bool) (fnmatch : List Nat → List Nat → Bool)
    (modname : List Nat → List Nat) (release : List Nat)
    (index indexFlat : Option (List (List Nat))) (given : List Opt)
    (argv : List (List Nat)) : Option MainRun :=
  match getopt32 given with
  | none => none
  | some (opts, field) =>
    if argv = [] then none
    else
      let env := mkEnv opts field
      let parser :=
        match index with
        | some lines => some lines
        | none => if flat then indexFlat else none
      match parser with
      | none =>
        if flat then some ⟨env, (literalPass argv).map (fun a => (a, [])), 0⟩
        else some ⟨env, (literalPass argv).map (fun a => (a, release)), 0⟩
      | some lines =>
        let r := indexPass fnmatch modname lines argv
        some ⟨env, r.1.map (fun p => (p, release)) ++
          (literalPass r.2).map (fun a => (a, release)), 0⟩

/-- Standard output of the scan of one module image under the options given on
the command line: the records of the loop over the tags of `modinfo()`, written
by `display` under the option mask. -/
def scanOutput (w under : Nat) (buf : List Nat) (given : List Opt) : Option (List Nat) :=
  match getopt32 given with
  | none => none
  | some (opts, field) =>
    some (render opts
      (tagLoop w under buf field (localTags (mkEnv opts field)) 13 1).events)

/-- Modelled from the spec: `bb_basename` of libbb is not part of `modinfo.c`;
the basename of a path is what follows its last `/`. -/
def bb_basename (p : List Nat) : List Nat :=
  (p.reverse.takeWhile (fun b => b != 47)).reverse

/-- A letter or a digit. -/
def isAlnum (b : Nat) : Bool :=
  (48 ≤ b && b ≤ 57) || (65 ≤ b && b ≤ 90) || (97 ≤ b && b ≤ 122)

/-- Modelled from the spec: `filename2modname` of libbb's modutils is not part of
`modinfo.c`; the module name is the file name with the extension stripped (what
comes before the first `.`) and every byte that is no letter and no digit
replaced by `_`. -/
def filename2modname (f : List Nat) : List Nat :=
  (f.takeWhile (fun b => b != 46)).map (fun b => if isAlnum b then b else 95)

/-- A byte is in the named character class of a bracket expression, as
`[:digit:]`, in the C locale; a name that is no class holds no byte. -/
def inClass (name : List Nat) (c : Nat) : Bool :=
  if name = bytes "alnum" then isAlnum c
  else if name = bytes "alpha" then (65 ≤ c && c ≤ 90) || (97 ≤ c && c ≤ 122)
  else if name = bytes "blank" then c = 32 || c = 9
  else if name = bytes "cntrl" then c < 32 || c = 127
  else if name = bytes "digit" then 48 ≤ c && c ≤ 57
  else if name = bytes "graph" then 33 ≤ c && c ≤ 126
  else if name = bytes "lower" then 97 ≤ c && c ≤ 122
  else if name = bytes "print" then 32 ≤ c && c ≤ 126
  else if name = bytes "punct" then (33 ≤ c && c ≤ 126) && !isAlnum c
  else if name = bytes "space" then c = 32 || (9 ≤ c && c ≤ 13)
  else if name = bytes "upper" then 65 ≤ c && c ≤ 90
  else if name = bytes "xdigit" then
    (48 ≤ c && c ≤ 57) || (65 ≤ c && c ≤ 70) || (97 ≤ c && c ≤ 102)
  else false

/-- The items of a bracket expression from `p` on, tested against the byte `c`:
single bytes, ranges `lo-hi`, named classes `[:name:]`, a backslash quoting the
byte after it; `first` holds for the first item, where `]` stands for itself, and
`acc` tells whether an earlier item holds `c`.  The result is whether some item
holds `c` and the pattern after the closing `]`, or `none` when the expression is
not closed. -/
def bracketItems (c : Nat) : Nat → List Nat → Bool → Bool → Option (Bool × List Nat)
  | 0, _, _, _ => none
  | _ + 1, [], _, _ => none
  | fuel + 1, x :: rest, first, acc =>
    if x = 93 ∧ first = false then some (acc, rest)
    else if x = 91 ∧ rest.head? = some 58 ∧
        ((rest.tail.dropWhile (fun b => b != 58)).take 2 = [58, 93]) then
      bracketItems c fuel ((rest.tail.dropWhile (fun b => b != 58)).drop 2) false
        (acc || inClass (rest.tail.takeWhile (fun b => b != 58)) c)
    else
      match (if x = 92 then rest else x :: rest) with
      | [] => none
      | lo :: after =>
        match after with
        | 45 :: hi0 :: after1 =>
          if hi0 = 93 then bracketItems c fuel after false (acc || decide (c = lo))
          else
            match (if hi0 = 92 then after1 else hi0 :: after1) with
            | [] => none
            | hi :: after2 =>
              bracketItems c fuel after2 false (acc || (decide (lo ≤ c) && decide (c ≤ hi)))
        | _ => bracketItems c fuel after false (acc || decide (c = lo))

/-- A bracket expression, the pattern `p` being what follows the `[`: a leading
`!` or `^` negates it.  The result is whether the byte `c` matches and the pattern
after the closing `]`, or `none` when the expression is not closed. -/
def bracket (p : List Nat) (c : Nat) : Option (Bool × List Nat) :=
  match p with
  | 33 :: rest => (bracketItems c (rest.length + 1) rest true false).map (fun r => (!r.1, r.2))
  | 94 :: rest => (bracketItems c (rest.length + 1) rest true false).map (fun r => (!r.1, r.2))
  | _ => bracketItems c (p.length + 1) p true false

/-- The match of a pattern against a string, for at most the given number of
pattern items. -/
def fnmatchAux : Nat → List Nat → List Nat → Bool
  | 0, _, _ => false
  | _ + 1, [], s => s.isEmpty
  | fuel + 1, p :: ps, s =>
    if p = 42 then s.tails.any (fun t => fnmatchAux fuel ps t)
    else
      match s with
      | [] => false
      | c :: cs =>
        if p = 63 then fnmatchAux fuel ps cs
        else if p = 92 then
          match ps with
          | [] => false
          | q :: qs => decide (q = c) && fnmatchAux fuel qs cs
        else if p = 91 then
          match bracket ps c with
          | some (b, rest) => b && fnmatchAux fuel rest cs
          | none => decide (c = 91) && fnmatchAux fuel ps cs
        else decide (p = c) && fnmatchAux fuel ps cs

/-- Modelled from the spec: `fnmatch` of the C library is not part of
`modinfo.c`; names are compared "using standard shell-glob semantics (`*`, `?`,
character classes)".  `fnmatch pattern string` stands for
`fnmatch(pattern, string, 0) == 0`: `*` matches any run of bytes, `?` any one
byte, a bracket expression `[...]` one byte of its set (single bytes, ranges,
named classes, negated by a leading `!` or `^`; a `[` that is not closed stands
for itself), a backslash quotes the byte after it (a pattern that ends in a
backslash matches nothing), and any other byte matches itself.  Every item takes
at least one byte of the pattern, so `|pattern| + 1` items are enough. -/
def fnmatch (pattern string : List Nat) : Bool :=
  fnmatchAux (pattern.length + 1) pattern string

/-! ## Notions the statements are written in -/

/-- The paths to try for `path`, in order: `path` itself; for a path that does
not start with `/` then `<dir>/<version>/<path>` and, in the flat layout,
`<dir>/<path>` (47 is the byte `/`). -/
def candidates (flat : Bool) (dir path version : List Nat) : List (List Nat) :=
  if path.head? = some 47 then [path]
  else
    [path, dir ++ [47] ++ version ++ [47] ++ path] ++
      (if flat then [dir ++ [47] ++ path] else [])

/-- The candidates tried in order until one opens: the paths handed to the
reader, and the image of the first candidate that opens. -/
def firstOpen (fs : List Nat → Option (List Nat)) :
    List (List Nat) → List (List Nat) × Option (List Nat)
  | [] => ([], none)
  | c :: cs =>
    match fs c with
    | some m => ([c], some m)
    | none => (c :: (firstOpen fs cs).1, (firstOpen fs cs).2)

/-- The filename record of `modinfo()`, present when bit 0 of `env->tags` is set. -/
def filenameRecord (path : List Nat) (env : modinfo_env) : List Event :=
  if env.tags &&& 1 ≠ 0 then
    [Event.display path (bytes "filename") (decide (1 ≠ env.tags))]
  else []

/-- The records of one field: the values the scan of `pattern` finds in the
buffer, in buffer order, each a call of `display` with the flag of loop index `j`. -/
def recordsOf (w under : Nat) (buf : List Nat) (tags j : Nat) (pattern : List Nat) : List Event :=
  (scan w under buf pattern).out.map
    (fun iv => Event.display iv.2 pattern (decide ((1 <<< j) ≠ tags)))

/-- The shortcut fields after `filename` with their table index, in table order,
that are selected in `tags`. -/
def selectedShortcuts (tags : Nat) : List (Nat × List Nat) :=
  (shortcuts.enum.tail).filter (fun jp => (1 <<< jp.1) &&& tags ≠ 0)

/-- The records of the free-form field, when one is set. -/
def freeFormRecords (w under : Nat) (buf : List Nat) (tags : Nat) : Option (List Nat) → List Event
  | some f => recordsOf w under buf tags 12 f
  | none => []

/-- All records of a module in field order: for every selected shortcut in table
order its records, then the records of the free-form field when one is set. -/
def fieldRecords (w under : Nat) (buf : List Nat) (env : modinfo_env) : List Event :=
  (selectedShortcuts (localTags env)).flatMap
      (fun jp => recordsOf w under buf (localTags env) jp.1 jp.2) ++
    freeFormRecords w under buf (localTags env) env.field

/-- What lines 117-120 test at offset `i`: the bytes at `i` are `pat`, an `=`
follows them, and the byte before `i`, which for `i = 0` is the byte below the
block, has its low seven bits zero. -/
def acceptedAt (under : Nat) (buf pat : List Nat) (i : Nat) : Prop :=
  (buf.drop i).take pat.length = pat ∧ buf[i + pat.length]? = some 61 ∧
    if i = 0 then under &&& 0x7F = 0 else ∃ b, buf[i - 1]? = some b ∧ b &&& 0x7F = 0

/-- A tag record of `pat` starts at offset `i` of the buffer: `i ≥ 1`, the bytes
at `i` are `pat`, an `=` follows them, and the byte before `i` has its low seven
bits zero. -/
def tagAt (buf pat : List Nat) (i : Nat) : Prop :=
  1 ≤ i ∧ (buf.drop i).take pat.length = pat ∧ buf[i + pat.length]? = some 61 ∧
    ∃ b, buf[i - 1]? = some b ∧ b &&& 0x7F = 0

instance (buf pat : List Nat) (i : Nat) : Decidable (tagAt buf pat i) :=
  decidable_of_iff
    (1 ≤ i ∧ (buf.drop i).take pat.length = pat ∧ buf[i + pat.length]? = some 61 ∧
      i - 1 < buf.length ∧ buf.getD (i - 1) 0 &&& 0x7F = 0)
    (by
      unfold tagAt
      constructor
      · rintro ⟨h1, h2, h3, h4, h5⟩
        refine ⟨h1, h2, h3, buf[i - 1], List.getElem?_eq_getElem h4, ?_⟩
        rw [List.getD_eq_getElem?_getD, List.getElem?_eq_getElem h4] at h5
        exact h5
      · rintro ⟨h1, h2, h3, b, h4, h5⟩
        have hl : i - 1 < buf.length := by
          by_contra hge
          rw [List.getElem?_eq_none (by omega)] at h4
          exact Option.noConfusion h4
        refine ⟨h1, h2, h3, hl, ?_⟩
        rw [List.getD_eq_getElem?_getD, h4]
        exact h5)

/-- One tag record: the boundary byte `r.1`, the name, `=`, the value `r.2`, NUL. -/
def tagRecord (name : List Nat) (r : Nat × List Nat) : List Nat :=
  r.1 :: (name ++ 61 :: (r.2 ++ [0]))

/-- The buffer made of the tag records of `name` for the given boundary bytes and
values, one after the other. -/
def recordsImage (name : List Nat) (recs : List (Nat × List Nat)) : List Nat :=
  recs.flatMap (tagRecord name)

/-- The bytes after the `=` of a match at offset `i`, up to the first NUL (or to
the end of the buffer, which the reader terminates with a NUL). -/
def valueAt (buf pat : List Nat) (i : Nat) : List Nat :=
  (buf.drop (i + pat.length + 1)).takeWhile (fun b => b != 0)

/-- The scan continued from cursor offset `off`, with the iterations that are
left for it. -/
def scanFrom (w under : Nat) (buf pat : List Nat) (off : Nat) : ScanResult :=
  scanLoop w under buf pat (buf.length + 2 - off) off

/-! ## The library calls -/

theorem memchrAux_hit (c : Nat) (l : List Nat) (n off i : Nat)
    (h : memchrAux c l n off = .hit i) :
    off ≤ i ∧ i - off < n ∧ l[i - off]? = some c ∧ ∀ k, k < i - off → l[k]? ≠ some c := by
  induction l generalizing n off with
  | nil => simp only [memchrAux] at h; split at h <;> simp at h
  | cons b rest ih =>
    simp only [memchrAux] at h
    split at h
    · simp at h
    · split at h
      · rename_i hn hb
        simp only [Found.hit.injEq] at h
        subst h; subst hb
        refine ⟨le_refl _, by omega, by simp, by intro k hk; omega⟩
      · rename_i hn hb
        obtain ⟨h1, h2, h3, h4⟩ := ih _ _ h
        refine ⟨by omega, by omega, ?_, ?_⟩
        · have : i - off = (i - (off + 1)) + 1 := by omega
          rw [this, List.getElem?_cons_succ]; exact h3
        · intro k hk
          cases k with
          | zero => simpa using hb
          | succ k => rw [List.getElem?_cons_succ]; exact h4 k (by omega)

theorem memchrAux_find (c : Nat) (l : List Nat) (n off k : Nat)
    (hk : k < n) (hc : l[k]? = some c) :
    ∃ q, memchrAux c l n off = .hit (off + q) ∧ q ≤ k := by
  induction l generalizing n off k with
  | nil => simp at hc
  | cons b rest ih =>
    simp only [memchrAux]
    have hn : n ≠ 0 := by omega
    simp only [hn, if_false]
    by_cases hb : b = c
    · exact ⟨0, by simp [hb], by omega⟩
    · simp only [hb, if_false]
      cases k with
      | zero => simp at hc; exact absurd hc hb
      | succ k =>
        rw [List.getElem?_cons_succ] at hc
        obtain ⟨q, hq, hqk⟩ := ih (n - 1) (off + 1) k (by omega) hc
        exact ⟨q + 1, by rw [hq]; congr 1; omega, by omega⟩

theorem memchrAux_zero (c : Nat) (l : List Nat) (off : Nat) :
    memchrAux c l 0 off = .null := by
  cases l <;> simp [memchrAux]

theorem memchr_hit (mem : List Nat) (off c n i : Nat) (h : memchr mem off c n = .hit i) :
    off ≤ i ∧ i < off + n ∧ mem[i]? = some c ∧
      ∀ k, off ≤ k → k < i → mem[k]? ≠ some c := by
  obtain ⟨h1, h2, h3, h4⟩ := memchrAux_hit c _ n off i h
  refine ⟨h1, by omega, ?_, ?_⟩
  · rw [List.getElem?_drop] at h3
    rwa [show off + (i - off) = i by omega] at h3
  · intro k hk1 hk2
    have := h4 (k - off) (by omega)
    rw [List.getElem?_drop] at this
    rwa [show off + (k - off) = k by omega] at this

theorem memchr_find (mem : List Nat) (off c n i : Nat) (h1 : off ≤ i) (h2 : i < off + n)
    (hc : mem[i]? = some c) :
    ∃ q, memchr mem off c n = .hit q ∧ off ≤ q ∧ q ≤ i := by
  have hc1 : (mem.drop off)[i - off]? = some c := by
    rw [List.getElem?_drop, show off + (i - off) = i by omega]; exact hc
  obtain ⟨q, hq, hqk⟩ := memchrAux_find c (mem.drop off) n off (i - off) (by omega) hc1
  exact ⟨off + q, hq, by omega, by omega⟩

theorem is_prefixed_with_eq (mem key : List Nat) (off : Nat) :
    is_prefixed_with mem off key =
      if key <+: mem.drop off then some (off + key.length) else none := by
  induction key generalizing off with
  | nil => simp [is_prefixed_with]
  | cons k key ih =>
    simp only [is_prefixed_with]
    by_cases hlt : off < mem.length
    · have hd := List.drop_eq_getElem_cons hlt
      simp only [hd, List.cons_prefix_cons, ih, List.getElem?_eq_getElem hlt,
        Option.some.injEq, List.length_cons]
      by_cases hk : mem[off] = k
      · subst hk
        simp only [true_and, if_true]
        split <;> simp [Nat.add_assoc, Nat.add_comm 1]
      · have hk1 : ¬ k = mem[off] := fun h => hk h.symm
        simp [hk, hk1]
    · have h1 : mem.drop off = [] := List.drop_of_length_le (by omega)
      have h2 : mem[off]? = none := List.getElem?_eq_none (by omega)
      simp [h1, h2]

theorem takeWhile_append_nul (v t : List Nat) (hv : ∀ b ∈ v, b ≠ 0) :
    (v ++ 0 :: t).takeWhile (fun b => b != 0) = v := by
  induction v with
  | nil => simp
  | cons a v ih =>
    have ha : a ≠ 0 := hv a (by simp)
    simp only [List.cons_append]
    rw [List.takeWhile_cons_of_pos (by simpa using ha)]
    rw [ih (fun b hb => hv b (by simp [hb]))]

theorem takeWhile_image (l : List Nat) :
    (l ++ [0]).takeWhile (fun b => b != 0) = l.takeWhile (fun b => b != 0) := by
  induction l with
  | nil => simp
  | cons a l ih =>
    by_cases ha : a = 0
    · simp [ha]
    · simp only [List.cons_append]
      rw [List.takeWhile_cons_of_pos (by simpa using ha),
        List.takeWhile_cons_of_pos (by simpa using ha), ih]

theorem takeWhile_nul_next (l : List Nat) :
    (l ++ [0])[(l.takeWhile (fun b => b != 0)).length]? = some 0 := by
  induction l with
  | nil => simp
  | cons a l ih =>
    by_cases ha : a = 0
    · simp [ha]
    · rw [List.takeWhile_cons_of_pos (by simpa using ha)]
      simpa using ih

theorem cstring_image (buf : List Nat) (off : Nat) (h : off ≤ buf.length) :
    cstring (image buf) off = (buf.drop off).takeWhile (fun b => b != 0) := by
  unfold cstring image
  rw [List.drop_append_of_le_length h, takeWhile_image]

theorem image_getElem?_lt (buf : List Nat) (a : Nat) (h : a < buf.length) :
    (image buf)[a]? = buf[a]? := by
  unfold image
  rw [List.getElem?_append_left h]

theorem image_getElem?_ne_zero (buf : List Nat) (a b : Nat) (h : (image buf)[a]? = some b)
    (hb : b ≠ 0) : a < buf.length ∧ buf[a]? = some b := by
  unfold image at h
  by_cases hlt : a < buf.length
  · rw [List.getElem?_append_left hlt] at h
    exact ⟨hlt, h⟩
  · exfalso
    rw [List.getElem?_append_right (by omega)] at h
    cases hx : a - buf.length with
    | zero => rw [hx] at h; simp at h; exact hb h.symm
    | succ k => rw [hx] at h; simp at h

/-! ## One iteration of the scan loop -/

theorem valueAt_length_le (buf pat : List Nat) (i : Nat) :
    i + pat.length + 1 + (valueAt buf pat i).length ≤ max buf.length (i + pat.length + 1) := by
  unfold valueAt
  have h := (List.takeWhile_sublist (fun b => b != 0)
    (l := buf.drop (i + pat.length + 1))).length_le
  rw [List.length_drop] at h
  omega

theorem scanStep_emit (w under : Nat) (buf pat : List Nat) (off i off1 : Nat) (v : List Nat)
    (h : scanStep w under buf pat off = .emit i v off1) :
    off ≤ i ∧ acceptedAt under buf pat i ∧ v = valueAt buf pat i ∧
      off1 = i + pat.length + 1 + v.length + 1 ∧ i + pat.length < buf.length := by
  unfold scanStep at h
  split at h
  · simp at h
  · simp at h
  · rename_i q hq
    obtain ⟨hq1, -, -, -⟩ := memchr_hit _ _ _ _ _ hq
    rw [is_prefixed_with_eq] at h
    split at h
    · simp at h
    · rename_i a ha
      split at ha
      · rename_i hpre
        simp only [Option.some.injEq] at ha
        subst ha
        split at h
        · rename_i heq
          obtain ⟨halt, hbeq⟩ := image_getElem?_ne_zero buf _ 61 heq (by decide)
          split at h
          · rename_i hb
            simp only [Step.emit.injEq] at h
            obtain ⟨h1, h2, h3⟩ := h
            subst h1
            have hv : v = valueAt buf pat q := by
              rw [← h2, cstring_image buf _ (by omega)]
              rfl
            refine ⟨hq1, ⟨?_, hbeq, ?_⟩, hv, ?_, halt⟩
            · have hpre1 : pat <+: buf.drop q ++ [0] := by
                have : (image buf).drop q = buf.drop q ++ [0] := by
                  unfold image
                  exact List.drop_append_of_le_length (by omega)
                rwa [this] at hpre
              have ht := List.prefix_iff_eq_take.mp hpre1
              rw [List.take_append_of_le_length (by rw [List.length_drop]; omega)] at ht
              exact ht.symm
            · unfold byteBefore at hb
              by_cases hq0 : q = 0
              · rw [if_pos hq0] at hb
                rw [if_pos hq0]
                exact hb
              · rw [if_neg hq0] at hb
                rw [if_neg hq0]
                have hlt : q - 1 < buf.length := by omega
                refine ⟨buf[q - 1], List.getElem?_eq_getElem hlt, ?_⟩
                have : (image buf).getD (q - 1) 0 = buf[q - 1] := by
                  rw [List.getD_eq_getElem?_getD, image_getElem?_lt buf _ hlt,
                    List.getElem?_eq_getElem hlt]
                  rfl
                rwa [this] at hb
            · rw [← h3, hv]
              unfold strlen
              rw [cstring_image buf _ (by omega)]
              rfl
          · simp at h
        · simp at h
      · simp at ha

theorem tagAt_of_accepted (under : Nat) (buf pat : List Nat) (i : Nat)
    (h : acceptedAt under buf pat i) (hi : 1 ≤ i) : tagAt buf pat i := by
  obtain ⟨h1, h2, h3⟩ := h
  rw [if_neg (by omega)] at h3
  exact ⟨hi, h1, h2, h3⟩

theorem accepted_of_tagAt (under : Nat) (buf pat : List Nat) (i : Nat)
    (h : tagAt buf pat i) : acceptedAt under buf pat i := by
  obtain ⟨h0, h1, h2, h3⟩ := h
  refine ⟨h1, h2, ?_⟩
  rw [if_neg (by omega)]
  exact h3

theorem accepted_zero_starts (under : Nat) (buf pat : List Nat)
    (h : acceptedAt under buf pat 0) : (pat ++ [61]) <+: buf := by
  obtain ⟨h1, h2, -⟩ := h
  simp only [List.drop_zero, Nat.zero_add] at h1 h2
  have hlt : pat.length < buf.length := by
    by_contra hge
    rw [List.getElem?_eq_none (by omega)] at h2
    exact Option.noConfusion h2
  rw [List.prefix_iff_eq_take]
  simp only [List.length_append, List.length_singleton]
  rw [List.take_succ, h2, h1]
  rfl

theorem scanStep_emit_bound (w under : Nat) (buf pat : List Nat) (off i off1 : Nat) (v : List Nat)
    (h : scanStep w under buf pat off = .emit i v off1) :
    off < off1 ∧ off1 ≤ buf.length + 1 := by
  obtain ⟨h1, -, h3, h4, h5⟩ := scanStep_emit w under buf pat off i off1 v h
  have := valueAt_length_le buf pat i
  rw [← h3] at this
  omega

theorem scanStep_next (w under : Nat) (buf pat : List Nat) (off off1 : Nat)
    (h : scanStep w under buf pat off = .next off1) :
    off < off1 ∧ off1 ≤ buf.length + 1 := by
  unfold scanStep at h
  split at h
  · simp at h
  · simp at h
  · rename_i q hq
    obtain ⟨hq1, -, hq3, -⟩ := memchr_hit _ _ _ _ _ hq
    have hq4 : q < (image buf).length := by
      by_contra hge
      rw [List.getElem?_eq_none (by omega)] at hq3
      simp at hq3
    have hlen : (image buf).length = buf.length + 1 := by simp [image]
    have key : off1 = q + 1 := by
      split at h
      · simpa using h.symm
      · split at h
        · split at h
          · simp at h
          · simpa using h.symm
        · simpa using h.symm
    omega

/-! ## Fuel: `buf.length + 2` iterations are enough -/

theorem scanLoop_fuel_succ (w under : Nat) (buf pat : List Nat) (fuel off : Nat)
    (h1 : off ≤ buf.length + 1) (h2 : buf.length + 2 ≤ fuel + off) :
    scanLoop w under buf pat (fuel + 1) off = scanLoop w under buf pat fuel off := by
  induction fuel generalizing off with
  | zero => omega
  | succ f ih =>
    rw [scanLoop, scanLoop]
    cases hs : scanStep w under buf pat off with
    | stop o => rfl
    | next off1 =>
      obtain ⟨hb1, hb2⟩ := scanStep_next w under buf pat off off1 hs
      simp only [ih off1 hb2 (by omega)]
    | emit i v off1 =>
      obtain ⟨hb1, hb2⟩ := scanStep_emit_bound w under buf pat off i off1 v hs
      simp only [ih off1 hb2 (by omega)]

theorem scanLoop_fuel_ge (w under : Nat) (buf pat : List Nat) (fuel off : Nat)
    (h1 : off ≤ buf.length + 1) (h2 : buf.length + 2 ≤ fuel + off) :
    scanLoop w under buf pat fuel off = scanFrom w under buf pat off := by
  unfold scanFrom
  obtain ⟨d, hd⟩ : ∃ d, fuel = (buf.length + 2 - off) + d := ⟨fuel - (buf.length + 2 - off), by omega⟩
  subst hd
  induction d with
  | zero => rfl
  | succ d ih =>
    rw [← Nat.add_assoc, scanLoop_fuel_succ w under buf pat _ off h1 (by omega)]
    exact ih (by omega)

theorem scan_eq_scanFrom (w under : Nat) (buf pat : List Nat) :
    scan w under buf pat = scanFrom w under buf pat 0 := rfl

theorem scanFrom_step (w under : Nat) (buf pat : List Nat) (off : Nat) (h : off ≤ buf.length + 1) :
    scanFrom w under buf pat off =
      match scanStep w under buf pat off with
      | .stop o => ⟨[], [off], o, false⟩
      | .next off1 =>
        ⟨(scanFrom w under buf pat off1).out, off :: (scanFrom w under buf pat off1).cursors,
          (scanFrom w under buf pat off1).outcome,
          readsBelow w buf pat off || (scanFrom w under buf pat off1).below⟩
      | .emit i v off1 =>
        ⟨(i, v) :: (scanFrom w under buf pat off1).out, off :: (scanFrom w under buf pat off1).cursors,
          (scanFrom w under buf pat off1).outcome,
          readsBelow w buf pat off || (scanFrom w under buf pat off1).below⟩ := by
  have hf : buf.length + 2 - off = (buf.length + 1 - off) + 1 := by omega
  conv_lhs => unfold scanFrom; rw [hf, scanLoop]
  cases hs : scanStep w under buf pat off with
  | stop o => rfl
  | next off1 =>
    obtain ⟨hb1, hb2⟩ := scanStep_next w under buf pat off off1 hs
    simp only [scanLoop_fuel_ge w under buf pat (buf.length + 1 - off) off1 hb2 (by omega)]
  | emit i v off1 =>
    obtain ⟨hb1, hb2⟩ := scanStep_emit_bound w under buf pat off i off1 v hs
    simp only [scanLoop_fuel_ge w under buf pat (buf.length + 1 - off) off1 hb2 (by omega)]

/-! ## Soundness of the scan -/

theorem scanLoop_out_sound (w under : Nat) (buf pat : List Nat) (fuel off i : Nat) (v : List Nat)
    (h : (i, v) ∈ (scanLoop w under buf pat fuel off).out) :
    acceptedAt under buf pat i ∧ v = valueAt buf pat i ∧ off ≤ i := by
  induction fuel generalizing off with
  | zero => simp [scanLoop] at h
  | succ f ih =>
    rw [scanLoop] at h
    cases hs : scanStep w under buf pat off with
    | stop o => rw [hs] at h; simp at h
    | next off1 =>
      rw [hs] at h
      obtain ⟨hb1, -⟩ := scanStep_next w under buf pat off off1 hs
      obtain ⟨h1, h2, h3⟩ := ih off1 h
      exact ⟨h1, h2, by omega⟩
    | emit j u off1 =>
      rw [hs] at h
      simp only [List.mem_cons, Prod.mk.injEq] at h
      obtain ⟨e1, e2, e3, -, -⟩ := scanStep_emit w under buf pat off j off1 u hs
      obtain ⟨hb1, -⟩ := scanStep_emit_bound w under buf pat off j off1 u hs
      rcases h with ⟨rfl, rfl⟩ | h
      · exact ⟨e2, e3, e1⟩
      · obtain ⟨h1, h2, h3⟩ := ih off1 h
        exact ⟨h1, h2, by omega⟩

theorem valueAt_nul_free (buf pat : List Nat) (i : Nat) : ∀ b ∈ valueAt buf pat i, b ≠ 0 := by
  intro b hb
  have := List.mem_takeWhile_imp hb
  simpa using this

theorem valueAt_terminated (buf pat : List Nat) (i : Nat) (h : i + pat.length + 1 ≤ buf.length) :
    (image buf)[i + pat.length + 1 + (valueAt buf pat i).length]? = some 0 := by
  have h1 := takeWhile_nul_next (buf.drop (i + pat.length + 1))
  have h2 : (image buf).drop (i + pat.length + 1) = buf.drop (i + pat.length + 1) ++ [0] := by
    unfold image
    exact List.drop_append_of_le_length h
  rw [← h2, List.getElem?_drop] at h1
  exact h1

/-- Soundness of the scan: every value the scan of `pat` hands to `display` comes
from an offset `i` of the buffer at which the bytes are `pat` and the next byte
is `=`; for `i ≥ 1` the byte before has its low seven bits zero, for `i = 0` the
byte the code finds below the block has; the value is exactly the bytes after
that `=` up to, and without, the first NUL byte after it. -/
theorem scan_sound (w under : Nat) (buf pat : List Nat) (i : Nat) (v : List Nat)
    (h : (i, v) ∈ (scan w under buf pat).out) :
    acceptedAt under buf pat i ∧
      v = (buf.drop (i + pat.length + 1)).take v.length ∧ (∀ b ∈ v, b ≠ 0) ∧
      (image buf)[i + pat.length + 1 + v.length]? = some 0 := by
  obtain ⟨hacc, hv, -⟩ := scanLoop_out_sound w under buf pat _ 0 i v h
  have h3 := hacc.2.1
  have hlt : i + pat.length < buf.length := by
    by_contra hge
    rw [List.getElem?_eq_none (by omega)] at h3
    simp at h3
  refine ⟨hacc, ?_, ?_, ?_⟩
  · have hp : v <+: buf.drop (i + pat.length + 1) := by
      rw [hv]; exact List.takeWhile_prefix _
    exact List.prefix_iff_eq_take.mp hp
  · rw [hv]; exact valueAt_nul_free buf pat i
  · rw [hv]; exact valueAt_terminated buf pat i (by omega)

/-! ## Matches at offset 0 and values that end with the buffer -/

theorem size_sub_of_le (w a b : Nat) (ha : a < 2 ^ w) (hb : b ≤ a) : size_sub w a b = a - b := by
  unfold size_sub
  have hb1 : b % 2 ^ w = b := Nat.mod_eq_of_lt (by omega)
  rw [Nat.mod_eq_of_lt ha, hb1]
  have : a + 2 ^ w - b = (a - b) + 2 ^ w := by omega
  rw [this, Nat.add_mod_right, Nat.mod_eq_of_lt (by omega)]

theorem scanStep_start (w under : Nat) (pat rest : List Nat) (hpat : pat ≠ [])
    (hw : (pat ++ 61 :: rest).length < 2 ^ w) :
    scanStep w under (pat ++ 61 :: rest) pat 0 =
        (if under &&& 0x7F = 0 then
          .emit 0 (rest.takeWhile (fun b => b != 0))
            (pat.length + 1 + (rest.takeWhile (fun b => b != 0)).length + 1)
        else .next 1) ∧
      readsBelow w (pat ++ 61 :: rest) pat 0 = true := by
  obtain ⟨c, tl, rfl⟩ := List.exists_cons_of_ne_nil hpat
  have hm : memchr (image (c :: tl ++ 61 :: rest)) 0 ((c :: tl).headD 0)
      (size_sub w (c :: tl ++ 61 :: rest).length 0) = .hit 0 := by
    rw [size_sub_of_le w _ 0 hw (Nat.zero_le _)]
    simp [memchr, image, memchrAux]
  have hp : (c :: tl) <+: List.drop 0 (image (c :: tl ++ 61 :: rest)) := by
    simp [image]
  have h61 : (image (c :: tl ++ 61 :: rest))[0 + (c :: tl).length]? = some 61 := by
    have : image (c :: tl ++ 61 :: rest) = (c :: tl) ++ (61 :: (rest ++ [0])) := by
      simp [image]
    rw [this, Nat.zero_add, List.getElem?_append_right (le_refl _)]
    simp
  have hcs : cstring (image (c :: tl ++ 61 :: rest)) (0 + (c :: tl).length + 1) =
      rest.takeWhile (fun b => b != 0) := by
    rw [cstring_image _ _ (by simp)]
    have : (c :: tl ++ 61 :: rest).drop (0 + (c :: tl).length + 1) = rest := by
      rw [Nat.zero_add, ← List.drop_drop, List.drop_left]
      rfl
    rw [this]
  constructor
  · unfold scanStep
    rw [hm]
    simp only [is_prefixed_with_eq]
    rw [if_pos hp]
    simp only [Nat.zero_add] at h61 hcs
    simp only [h61, if_true, strlen, hcs, byteBefore, Nat.zero_add]
  · unfold readsBelow
    rw [hm]
    simp only [is_prefixed_with_eq]
    rw [if_pos hp]
    simp only [h61, decide_True, Bool.and_self]

theorem scan_start_below (w under : Nat) (pat rest : List Nat) (hpat : pat ≠ [])
    (hw : (pat ++ 61 :: rest).length < 2 ^ w) :
    (scan w under (pat ++ 61 :: rest) pat).below = true := by
  obtain ⟨h1, h2⟩ := scanStep_start w under pat rest hpat hw
  rw [scan_eq_scanFrom, scanFrom_step w under _ _ 0 (by omega), h1]
  by_cases hu : under &&& 0x7F = 0
  · rw [if_pos hu]
    simp [h2]
  · rw [if_neg hu]
    simp [h2]

theorem scan_start_emits (w under : Nat) (pat rest : List Nat) (hpat : pat ≠ [])
    (hw : (pat ++ 61 :: rest).length < 2 ^ w) (hu : under &&& 0x7F = 0) :
    (0, rest.takeWhile (fun b => b != 0)) ∈ (scan w under (pat ++ 61 :: rest) pat).out := by
  obtain ⟨h1, -⟩ := scanStep_start w under pat rest hpat hw
  rw [scan_eq_scanFrom, scanFrom_step w under _ _ 0 (by omega), h1, if_pos hu]
  exact List.mem_cons_self _ _

/-- C1: the scan emits a value for a match at offset 0.  For a buffer that starts
with the pattern and `=`, the loop tests `ptr[-1]`, the byte below the block;
when that byte has its low seven bits zero the bytes after the `=` up to the
first NUL are handed to `display` with offset 0: an emitted value that starts
after no offset `i ≥ 1` and has no boundary byte in the buffer before it. -/
theorem scan_emits_at_offset_zero (w under : Nat) (pat rest : List Nat) (hpat : pat ≠ [])
    (hw : (pat ++ 61 :: rest).length < 2 ^ w) (hu : under &&& 0x7F = 0) :
    (scan w under (pat ++ 61 :: rest) pat).out.head? =
      some (0, rest.takeWhile (fun b => b != 0)) := by
  obtain ⟨h1, -⟩ := scanStep_start w under pat rest hpat hw
  rw [scan_eq_scanFrom, scanFrom_step w under _ _ 0 (by omega), h1, if_pos hu]
  rfl

/-- Witness of `scan_emits_at_offset_zero`: the image `a=x\0` scanned for `a`,
with a zero byte below the block. -/
theorem scan_emits_at_offset_zero_witness :
    (scan 64 0 ([97] ++ 61 :: [120, 0]) [97]).out.head? =
      some (0, ([120, 0] : List Nat).takeWhile (fun b => b != 0)) :=
  scan_emits_at_offset_zero 64 0 [97] [120, 0] (by decide) (by decide) (by decide)

/-- The image `a=x\0` scanned for `a`: with a zero byte below the block the
value `x` is emitted for offset 0 and the loop goes on at offset 4; with the byte
`0x01` below the block nothing is emitted and the loop goes on at offset 1. -/
theorem scan_start_eval :
    scan 64 0 [97, 61, 120, 0] [97] = ⟨[(0, [120])], [0, 4], .done, true⟩ ∧
      scan 64 1 [97, 61, 120, 0] [97] = ⟨[], [0, 1], .done, true⟩ ∧
      scan 64 128 [97, 61, 120, 0] [97] = ⟨[(0, [120])], [0, 4], .done, true⟩ := by
  refine ⟨by decide, by decide, by decide⟩

/-- C9: a buffer that starts with the pattern and `=` makes the scan evaluate
`ptr[-1]` with `ptr == the_module`: the loop reads the byte before the start of
the buffer, and a value is emitted for offset 0 exactly when that byte has its
low seven bits zero. -/
theorem scan_match_at_start (w under : Nat) (pat rest : List Nat) (hpat : pat ≠ [])
    (hw : (pat ++ 61 :: rest).length < 2 ^ w) :
    (scan w under (pat ++ 61 :: rest) pat).below = true ∧
      ((0, rest.takeWhile (fun b => b != 0)) ∈ (scan w under (pat ++ 61 :: rest) pat).out ↔
        under &&& 0x7F = 0) := by
  refine ⟨scan_start_below w under pat rest hpat hw, ?_, scan_start_emits w under pat rest hpat hw⟩
  intro h
  obtain ⟨⟨-, -, h3⟩, -, -⟩ := scanLoop_out_sound w under _ pat _ 0 0 _ h
  rw [if_pos rfl] at h3
  exact h3

/-- Witness of `scan_match_at_start`: the image `a=x\0` scanned for `a`, with a
zero byte below the block. -/
theorem scan_match_at_start_witness :
    (scan 64 0 ([97] ++ 61 :: [120, 0]) [97]).below = true ∧
      ((0, ([120, 0] : List Nat).takeWhile (fun b => b != 0)) ∈
        (scan 64 0 ([97] ++ 61 :: [120, 0]) [97]).out ↔ 0 &&& 0x7F = 0) :=
  scan_match_at_start 64 0 [97] [120, 0] (by decide) (by decide)

theorem scanStep_stop_ne_fuel (w under : Nat) (buf pat : List Nat) (off : Nat) (o : Outcome)
    (h : scanStep w under buf pat off = .stop o) : o ≠ .fuel := by
  unfold scanStep at h
  split at h
  · cases h; decide
  · cases h; decide
  · split at h
    · cases h
    · split at h
      · split at h <;> cases h
      · cases h

theorem scanFrom_outcome_ne_fuel (w under : Nat) (buf pat : List Nat) :
    ∀ d c, buf.length + 1 - c = d → c ≤ buf.length + 1 →
      (scanFrom w under buf pat c).outcome ≠ .fuel := by
  intro d
  induction d using Nat.strong_induction_on with
  | _ d ih =>
    intro c hd hc
    rw [scanFrom_step w under buf pat c hc]
    cases hs : scanStep w under buf pat c with
    | stop o => exact scanStep_stop_ne_fuel w under buf pat c o hs
    | next off1 =>
      obtain ⟨hb1, hb2⟩ := scanStep_next w under buf pat c off1 hs
      exact ih (buf.length + 1 - off1) (by omega) off1 rfl hb2
    | emit i v off1 =>
      obtain ⟨hb1, hb2⟩ := scanStep_emit_bound w under buf pat c i off1 v hs
      exact ih (buf.length + 1 - off1) (by omega) off1 rfl hb2

/-- The scan never runs out of the `len + 2` iterations of the model. -/
theorem scan_outcome_ne_fuel (w under : Nat) (buf pat : List Nat) :
    (scan w under buf pat).outcome ≠ .fuel :=
  scanFrom_outcome_ne_fuel w under buf pat _ 0 rfl (Nat.zero_le _)

theorem size_sub_past_end (w len : Nat) (hw : len < 2 ^ w) :
    size_sub w len (len + 1) = 2 ^ w - 1 := by
  unfold size_sub
  rw [Nat.mod_eq_of_lt hw]
  by_cases h : len + 1 = 2 ^ w
  · rw [h, Nat.mod_self, Nat.sub_zero, Nat.add_mod_right, Nat.mod_eq_of_lt hw]
    omega
  · have hm : (len + 1) % 2 ^ w = len + 1 := Nat.mod_eq_of_lt (by omega)
    have : len + 2 ^ w - (len + 1) = 2 ^ w - 1 := by omega
    rw [hm, this, Nat.mod_eq_of_lt (by omega)]

theorem scanFrom_past_end (w under : Nat) (buf pat : List Nat) (hw : buf.length < 2 ^ w)
    (h2 : 1 ≤ buf.length) :
    scanFrom w under buf pat (buf.length + 1) = ⟨[], [buf.length + 1], .overrun, false⟩ := by
  rw [scanFrom_step w under buf pat _ (le_refl _)]
  have hs : scanStep w under buf pat (buf.length + 1) = .stop .overrun := by
    unfold scanStep memchr
    rw [size_sub_past_end w _ hw]
    have hd : (image buf).drop (buf.length + 1) = [] := by
      apply List.drop_of_length_le
      simp [image]
    have hn : 2 ^ w - 1 ≠ 0 := by omega
    rw [hd]
    simp only [memchrAux, hn, if_false]
  rw [hs]

theorem scanFrom_value_at_end (w under : Nat) (buf pat : List Nat) (i : Nat) (v : List Nat)
    (hw : buf.length < 2 ^ w) (hend : i + pat.length + 1 + v.length = buf.length) :
    ∀ d c, buf.length + 1 - c = d → c ≤ buf.length + 1 →
      (i, v) ∈ (scanFrom w under buf pat c).out →
      buf.length + 1 ∈ (scanFrom w under buf pat c).cursors ∧
        (scanFrom w under buf pat c).outcome = .overrun := by
  intro d
  induction d using Nat.strong_induction_on with
  | _ d ih =>
    intro c hd hc hmem
    rw [scanFrom_step w under buf pat c hc] at hmem ⊢
    cases hs : scanStep w under buf pat c with
    | stop o => rw [hs] at hmem; simp at hmem
    | next off1 =>
      rw [hs] at hmem
      obtain ⟨hb1, hb2⟩ := scanStep_next w under buf pat c off1 hs
      obtain ⟨r1, r2⟩ := ih (buf.length + 1 - off1) (by omega) off1 rfl hb2 hmem
      exact ⟨List.mem_cons_of_mem _ r1, r2⟩
    | emit j u off1 =>
      rw [hs] at hmem
      obtain ⟨hb1, hb2⟩ := scanStep_emit_bound w under buf pat c j off1 u hs
      obtain ⟨-, -, -, e4, e5⟩ := scanStep_emit w under buf pat c j off1 u hs
      simp only [List.mem_cons, Prod.mk.injEq] at hmem
      rcases hmem with ⟨rfl, rfl⟩ | hmem
      · have ho : off1 = buf.length + 1 := by omega
        have h2 : 1 ≤ buf.length := by omega
        subst ho
        simp only [scanFrom_past_end w under buf pat hw h2]
        exact ⟨by simp, trivial⟩
      · obtain ⟨r1, r2⟩ := ih (buf.length + 1 - off1) (by omega) off1 rfl hb2 hmem
        exact ⟨List.mem_cons_of_mem _ r1, r2⟩

/-- C10: when an accepted value is not NUL-terminated inside the buffer (it ends
with the buffer), the loop goes on with the cursor at offset `len + 1`, past the
buffer length: `len - offset` wraps to the largest `size_t`, and `memchr` is
called with that count and leaves the block. -/
theorem scan_value_at_end_overruns (w under : Nat) (buf pat : List Nat) (i : Nat) (v : List Nat)
    (hw : buf.length < 2 ^ w) (h : (i, v) ∈ (scan w under buf pat).out)
    (hend : i + pat.length + 1 + v.length = buf.length) :
    buf.length + 1 ∈ (scan w under buf pat).cursors ∧
      size_sub w buf.length (buf.length + 1) = 2 ^ w - 1 ∧
      (scan w under buf pat).outcome = .overrun := by
  obtain ⟨r1, r2⟩ := scanFrom_value_at_end w under buf pat i v hw hend _ 0 rfl (Nat.zero_le _) h
  exact ⟨r1, size_sub_past_end w _ hw, r2⟩

/-- Witness of `scan_value_at_end_overruns`: the truncated image `\0a=x`
scanned for `a`. -/
theorem scan_value_at_end_overruns_witness :
    ([0, 97, 61, 120] : List Nat).length < 2 ^ 64 ∧
    (1, [120]) ∈ (scan 64 0 [0, 97, 61, 120] [97]).out ∧
    1 + ([97] : List Nat).length + 1 + ([120] : List Nat).length =
      ([0, 97, 61, 120] : List Nat).length ∧
    ([0, 97, 61, 120] : List Nat).length + 1 ∈ (scan 64 0 [0, 97, 61, 120] [97]).cursors ∧
      size_sub 64 ([0, 97, 61, 120] : List Nat).length
        (([0, 97, 61, 120] : List Nat).length + 1) = 2 ^ 64 - 1 ∧
      (scan 64 0 [0, 97, 61, 120] [97]).outcome = .overrun :=
  ⟨by decide, by decide, by decide,
    scan_value_at_end_overruns 64 0 [0, 97, 61, 120] [97] 1 [120] (by decide) (by decide)
      (by decide)⟩

/-- C20: on the truncated image `\0a=x` (length 4) scanned for `a` the loop does
not end with `memchr` finding no further occurrence.  The value `x` is accepted,
the cursor moves past the NUL the reader stored behind the buffer, to offset
`5 = len + 1`, and the next iteration calls `memchr` there with the count
`len - 5`, which is `2^64 - 1` (`2^32 - 1` for 32-bit `size_t`): the search runs
through the memory behind the block. -/
theorem scan_truncated_image_eval :
    scan 64 0 [0, 97, 61, 120] [97] = ⟨[(1, [120])], [0, 5], .overrun, false⟩ ∧
      size_sub 64 ([0, 97, 61, 120] : List Nat).length 5 = 2 ^ 64 - 1 ∧
      memchr (image [0, 97, 61, 120]) 5 97 (2 ^ 64 - 1) = .overrun ∧
      scan 32 0 [0, 97, 61, 120] [97] = ⟨[(1, [120])], [0, 5], .overrun, false⟩ ∧
      size_sub 32 ([0, 97, 61, 120] : List Nat).length 5 = 2 ^ 32 - 1 ∧
      memchr (image [0, 97, 61, 120]) 5 97 (2 ^ 32 - 1) = .overrun := by
  refine ⟨by decide, by decide, by decide, by decide, by decide, by decide⟩

/-! ## The record terminator -/

theorem position_lt (c : Char) (l : List Char) (k : Nat) (h : position c l = some k) :
    k < l.length := by
  induction l generalizing k with
  | nil => simp [position] at h
  | cons x xs ih =>
    simp only [position] at h
    split at h
    · simp at h; subst h; simp
    · cases hp : position c xs with
      | none => rw [hp] at h; simp at h
      | some j =>
        rw [hp] at h
        simp at h
        subst h
        have := ih j hp
        simp only [List.length_cons]
        omega

theorem getopt32_mask_lt (given : List Opt) (m : Nat) (f : Option (List Nat))
    (h : getopt32 given = some (m, f)) : m < 2 ^ 13 := by
  induction given generalizing m f with
  | nil => simp [getopt32] at h; omega
  | cons o rest ih =>
    cases o with
    | flag c =>
      simp only [getopt32] at h
      split at h
      · simp at h
      · split at h
        · rename_i k m1 f1 hk hr
          simp only [Option.some.injEq, Prod.mk.injEq] at h
          obtain ⟨rfl, -⟩ := h
          have hk1 : k < 13 := position_lt _ _ _ hk
          have hm1 := ih m1 f1 hr
          apply Nat.or_lt_two_pow hm1
          rw [Nat.one_shiftLeft]
          exact Nat.pow_lt_pow_right (by omega) hk1
        · simp at h
    | field kw =>
      simp only [getopt32] at h
      split at h
      · rename_i k m1 f1 hk hr
        simp only [Option.some.injEq, Prod.mk.injEq] at h
        obtain ⟨rfl, -⟩ := h
        have hk1 : k < 13 := position_lt _ _ _ hk
        have hm1 := ih m1 f1 hr
        apply Nat.or_lt_two_pow hm1
        rw [Nat.one_shiftLeft]
        exact Nat.pow_lt_pow_right (by omega) hk1
      · simp at h

theorem and_OPT_0_of_lt (m : Nat) (h : m < 2 ^ 13) : m &&& OPT_0 = 0 := by
  apply Nat.eq_of_testBit_eq
  intro i
  simp only [Nat.testBit_and, Nat.zero_testBit, OPT_0, Nat.one_shiftLeft, Nat.testBit_two_pow]
  by_cases hi : 13 = i
  · subst hi
    simp [Nat.testBit_lt_two_pow h]
  · simp [hi]

/-- C8: whatever options are given, `-0` included, the mask `getopt32` builds
from the option string `nladvAsDumpF:0` never has the bit `OPT_0` that `display`
tests (`-0` sets bit 12, `OPT_0` is bit 13), so every record ends with a newline. -/
theorem display_newline_for_every_option (given : List Opt) (m : Nat)
    (f : Option (List Nat)) (h : getopt32 given = some (m, f))
    (data pattern : List Nat) (flag : Bool) :
    (display m data pattern flag).getLast? = some 10 := by
  have h0 := and_OPT_0_of_lt m (getopt32_mask_lt given m f h)
  simp [display, h0]

/-- Witness of `display_newline_for_every_option`: the command line `-0`. -/
theorem display_newline_for_every_option_witness :
    getopt32 [.flag '0'] = some (1 <<< 12, none) ∧
      (display (1 <<< 12) [71, 80, 76] (bytes "license") false).getLast? = some 10 :=
  ⟨by decide,
    display_newline_for_every_option [.flag '0'] (1 <<< 12) none (by decide)
      [71, 80, 76] (bytes "license") false⟩

/-! ## Path fallback -/

theorem tagLoop_all_display (w under : Nat) (buf : List Nat) (field : Option (List Nat)) (tags : Nat)
    (fuel j : Nat) : ∀ e ∈ (tagLoop w under buf field tags fuel j).events, isDisplay e = true := by
  induction fuel generalizing j with
  | zero => simp [tagLoop]
  | succ f ih =>
    rw [tagLoop]
    split
    · simp
    · split
      · exact ih (j + 1)
      · split
        · simp
        · rename_i p hp
          intro e he
          cases hsc : (scan w under buf p).outcome <;> simp only [hsc] at he
          · simp only [List.mem_append, List.mem_map] at he
            rcases he with ⟨iv, -, rfl⟩ | he
            · rfl
            · exact ih (j + 1) e he
          all_goals
            simp only [List.mem_map] at he
            obtain ⟨iv, -, rfl⟩ := he
            rfl

theorem displays_of_all (es : List Event) (h : ∀ e ∈ es, isDisplay e = true) :
    displays es = es := by
  unfold displays
  exact List.filter_eq_self.mpr h

theorem reads_of_all (es : List Event) (h : ∀ e ∈ es, isDisplay e = true) : reads es = [] := by
  induction es with
  | nil => rfl
  | cons e es ih =>
    have he := h e (by simp)
    cases e with
    | display d p f => simp only [reads]; exact ih (fun x hx => h x (by simp [hx]))
    | read p => simp [isDisplay] at he
    | perror => simp [isDisplay] at he

theorem reads_append (a b : List Event) : reads (a ++ b) = reads a ++ reads b := by
  induction a with
  | nil => rfl
  | cons e a ih => cases e <;> simp [reads, ih]

theorem displays_append (a b : List Event) : displays (a ++ b) = displays a ++ displays b := by
  simp [displays]

theorem filenameRecord_all_display (path : List Nat) (env : modinfo_env) :
    ∀ e ∈ filenameRecord path env, isDisplay e = true := by
  intro e he
  unfold filenameRecord at he
  split at he
  · simp at he; subst he; rfl
  · simp at he

theorem modinfo_events (w under : Nat) (flat : Bool) (dir : List Nat)
    (fs : List Nat → Option (List Nat)) (path version : List Nat) (env : modinfo_env) :
    modinfo w under flat dir fs path version env =
      match acquire flat dir fs path version with
      | (tried, none) => ⟨filenameRecord path env ++ tried, .done⟩
      | (tried, some buf) =>
        ⟨filenameRecord path env ++ tried ++
            (tagLoop w under buf env.field (localTags env) 13 1).events,
          (tagLoop w under buf env.field (localTags env) 13 1).outcome⟩ := by
  unfold modinfo filenameRecord
  rfl

/-! ## The filename record -/

/-- At the level of the function `modinfo()` alone, with `env->tags == 1` the
filename record is the bare path, with no label, also when `field` is not NULL:
the test `1 != tags` is made before the free-form bit is merged into `tags`.
(`modinfo_main` never builds such an environment, see `getopt32_field_tags`.) -/
theorem modinfo_filename_bare_with_field (w under : Nat) (flat : Bool) (dir : List Nat)
    (fs : List Nat → Option (List Nat)) (path version : List Nat)
    (field : Option (List Nat)) (option_mask32 : Nat) :
    (modinfo w under flat dir fs path version ⟨field, 1⟩).events.head? =
        some (Event.display path (bytes "filename") false) ∧
      display option_mask32 path (bytes "filename") false =
        path ++ [if option_mask32 &&& OPT_0 ≠ 0 then 0 else 10] := by
  constructor
  · unfold modinfo
    have h1 : (1 : Nat) &&& 1 ≠ 0 := by decide
    simp only [h1, if_true, ne_eq, not_true_eq_false, decide_False, not_false_eq_true]
    cases acquire flat dir fs path version with
    | mk tried m =>
      cases m <;> simp [shortcuts]
  · simp [display]

theorem getopt32_field_bit (given : List Opt) (m : Nat) (f : List Nat)
    (h : getopt32 given = some (m, some f)) : m.testBit 11 = true := by
  induction given generalizing m f with
  | nil => simp [getopt32] at h
  | cons o rest ih =>
    cases o with
    | flag c =>
      simp only [getopt32] at h
      split at h
      · simp at h
      · split at h
        · rename_i k m1 f1 hk hr
          simp only [Option.some.injEq, Prod.mk.injEq] at h
          obtain ⟨rfl, rfl⟩ := h
          rw [Nat.testBit_or, ih m1 f hr]
          rfl
        · simp at h
    | field kw =>
      simp only [getopt32] at h
      split at h
      · rename_i k m1 f1 hk hr
        have hk11 : position 'F' (optLetters optstring) = some 11 := by decide
        rw [hk11] at hk
        simp only [Option.some.injEq] at hk
        subst hk
        simp only [Option.some.injEq, Prod.mk.injEq] at h
        obtain ⟨rfl, -⟩ := h
        rw [Nat.testBit_or, Nat.one_shiftLeft, Nat.testBit_two_pow_self]
        exact Bool.or_true _
      · simp at h

/-- With `-F` on the command line the selection `env.tags` built at line 158 is
never the filename bit alone: `-F` sets bit 11 of the mask, a bit of `OPT_TAGS`. -/
theorem getopt32_field_tags (given : List Opt) (m : Nat) (f : List Nat)
    (h : getopt32 given = some (m, some f)) : (mkEnv m (some f)).tags ≠ 1 := by
  have hb := getopt32_field_bit given m f h
  have hand : (m &&& OPT_TAGS).testBit 11 = true := by
    rw [Nat.testBit_and, hb]
    decide
  have hne : m &&& OPT_TAGS ≠ 0 := by
    intro h0
    rw [h0] at hand
    simp at hand
  unfold mkEnv
  simp only [hne, ne_eq, not_false_eq_true, if_true]
  intro h1
  rw [h1] at hand
  revert hand
  decide

/-- C7: for every selection `modinfo_main` builds from the parsed options in
which the filename shortcut is selected, the first event of `modinfo()` is the
filename record; it is the bare path followed by the terminator when filename is
the only requested tag (`tags == 1` and no free-form field), and `filename:`,
seven blanks, the path and the terminator whenever another shortcut or the
free-form field is requested. -/
theorem modinfo_filename_record (w under : Nat) (flat : Bool) (dir : List Nat)
    (fs : List Nat → Option (List Nat)) (path version : List Nat)
    (given : List Opt) (opts : Nat) (field : Option (List Nat))
    (hopts : getopt32 given = some (opts, field))
    (hsel : (mkEnv opts field).tags &&& 1 ≠ 0) :
    (modinfo w under flat dir fs path version (mkEnv opts field)).events.head? =
        some (Event.display path (bytes "filename")
          (decide ((mkEnv opts field).tags ≠ 1) || field.isSome)) ∧
      display opts path (bytes "filename") false =
        path ++ [if opts &&& OPT_0 ≠ 0 then 0 else 10] ∧
      display opts path (bytes "filename") true =
        bytes "filename:" ++ List.replicate 7 32 ++ path ++
          [if opts &&& OPT_0 ≠ 0 then 0 else 10] := by
  refine ⟨?_, ?_, ?_⟩
  · have hflag : decide (1 ≠ (mkEnv opts field).tags) =
        (decide ((mkEnv opts field).tags ≠ 1) || field.isSome) := by
      cases field with
      | none =>
        simp only [Option.isSome_none, Bool.or_false]
        exact decide_eq_decide.mpr ⟨fun h e => h e.symm, fun h e => h e.symm⟩
      | some f =>
        have hne := getopt32_field_tags given opts f hopts
        simp only [Option.isSome_some, Bool.or_true, decide_eq_true_eq]
        exact fun e => hne e.symm
    rw [modinfo_events]
    unfold filenameRecord
    rw [if_pos hsel, hflag]
    cases acquire flat dir fs path version with
    | mk tried m =>
      cases m <;> rfl
  · simp [display]
  · simp only [display, if_true]
    have hb : putBlanks 16 ((bytes "filename").length + 1) = List.replicate 7 32 := by decide
    have hn : bytes "filename" ++ [58] = bytes "filename:" := by decide
    rw [hb, hn]

/-- Witness of `modinfo_filename_record`: the command line `-n -F author`. -/
theorem modinfo_filename_record_witness :
    getopt32 [.flag 'n', .field (bytes "author")] = some (2049, some (bytes "author")) ∧
    (mkEnv 2049 (some (bytes "author"))).tags &&& 1 ≠ 0 ∧
    ((modinfo 64 0 true (bytes "/lib/modules") (fun _ => none) (bytes "m.ko") (bytes "3.4")
        (mkEnv 2049 (some (bytes "author")))).events.head? =
        some (Event.display (bytes "m.ko") (bytes "filename")
          (decide ((mkEnv 2049 (some (bytes "author"))).tags ≠ 1) ||
            (some (bytes "author")).isSome)) ∧
      display 2049 (bytes "m.ko") (bytes "filename") false =
        bytes "m.ko" ++ [if 2049 &&& OPT_0 ≠ 0 then 0 else 10] ∧
      display 2049 (bytes "m.ko") (bytes "filename") true =
        bytes "filename:" ++ List.replicate 7 32 ++ bytes "m.ko" ++
          [if 2049 &&& OPT_0 ≠ 0 then 0 else 10]) :=
  ⟨by decide, by decide,
    modinfo_filename_record 64 0 true (bytes "/lib/modules") (fun _ => none) (bytes "m.ko")
      (bytes "3.4") [.flag 'n', .field (bytes "author")] 2049 (some (bytes "author"))
      (by decide) (by decide)⟩

/-! ## The candidates of the fallback -/

theorem candidates_eq (flat : Bool) (dir path version : List Nat) :
    candidates flat dir path version =
      if path.head? = some 47 then [path]
      else [path, versionedPath dir version path] ++
        (if flat then [flatPath dir path] else []) := rfl

theorem acquire_spec (flat : Bool) (dir : List Nat) (fs : List Nat → Option (List Nat))
    (path version : List Nat) :
    reads (acquire flat dir fs path version).1 =
        (firstOpen fs (candidates flat dir path version)).1 ∧
      displays (acquire flat dir fs path version).1 = [] ∧
      (acquire flat dir fs path version).2 =
        (firstOpen fs (candidates flat dir path version)).2 := by
  rw [candidates_eq]
  unfold acquire
  cases h0 : fs path with
  | some m => by_cases hs : path.head? = some 47 <;> simp [hs, firstOpen, h0, reads, displays, isDisplay]
  | none =>
    by_cases hs : path.head? = some 47
    · simp [hs, firstOpen, h0, reads, displays, isDisplay]
    · cases h1 : fs (versionedPath dir version path) with
      | some m => cases flat <;> simp [hs, firstOpen, h0, h1, reads, displays, isDisplay]
      | none =>
        cases flat with
        | false => simp [hs, firstOpen, h0, h1, reads, displays, isDisplay]
        | true =>
          cases h2 : fs (flatPath dir path) <;>
            simp [hs, firstOpen, h0, h1, h2, reads, displays, isDisplay]

/-- C6: `modinfo()` hands to the reader `path`, then `<dir>/<version>/<path>`
and then (flat layout) `<dir>/<path>`, in this order and only `path` when it
starts with `/`, and stops at the first one that opens; the image scanned is the
one of that first candidate, and when no candidate opens no call of `display`
other than the filename record is made. -/
theorem modinfo_fallback (w under : Nat) (flat : Bool) (dir : List Nat)
    (fs : List Nat → Option (List Nat)) (path version : List Nat) (env : modinfo_env) :
    reads (modinfo w under flat dir fs path version env).events =
        (firstOpen fs
          (if path.head? = some 47 then [path]
           else [path, dir ++ [47] ++ version ++ [47] ++ path] ++
             (if flat then [dir ++ [47] ++ path] else []))).1 ∧
      displays (modinfo w under flat dir fs path version env).events =
        filenameRecord path env ++
          (match (firstOpen fs
              (if path.head? = some 47 then [path]
               else [path, dir ++ [47] ++ version ++ [47] ++ path] ++
                 (if flat then [dir ++ [47] ++ path] else []))).2 with
           | none => []
           | some buf => (tagLoop w under buf env.field (localTags env) 13 1).events) := by
  obtain ⟨h1, h2, h3⟩ := acquire_spec flat dir fs path version
  unfold candidates at h1 h3
  rw [modinfo_events, ← h1, ← h3]
  have hf := filenameRecord_all_display path env
  cases ha : acquire flat dir fs path version with
  | mk tried m =>
    rw [ha] at h2
    cases m with
    | none =>
      simp only [reads_append, displays_append, reads_of_all _ hf, displays_of_all _ hf, h2]
      simp
    | some buf =>
      have ht := tagLoop_all_display w under buf env.field (localTags env) 13 1
      simp only [reads_append, displays_append, reads_of_all _ hf, displays_of_all _ hf, h2,
        reads_of_all _ ht, displays_of_all _ ht]
      simp

/-- The fallback on an example: `kernel/m.ko` opens only below the flat modules
directory; the reader is called with `kernel/m.ko`, `/lib/modules/3.4/kernel/m.ko`
and `/lib/modules/kernel/m.ko`, and the image of the last one is scanned. -/
theorem modinfo_fallback_eval :
    reads (modinfo 64 0 true (bytes "/lib/modules")
        (fun p => if p = bytes "/lib/modules/kernel/m.ko" then
          some ([0] ++ bytes "license=GPL" ++ [0]) else none)
        (bytes "kernel/m.ko") (bytes "3.4") ⟨none, 2⟩).events =
      [bytes "kernel/m.ko", bytes "/lib/modules/3.4/kernel/m.ko",
        bytes "/lib/modules/kernel/m.ko"] ∧
    displays (modinfo 64 0 true (bytes "/lib/modules")
        (fun p => if p = bytes "/lib/modules/kernel/m.ko" then
          some ([0] ++ bytes "license=GPL" ++ [0]) else none)
        (bytes "kernel/m.ko") (bytes "3.4") ⟨none, 2⟩).events =
      [Event.display (bytes "GPL") (bytes "license") false] ∧
    reads (modinfo 64 0 true (bytes "/lib/modules") (fun _ => none)
        (bytes "/m.ko") (bytes "3.4") ⟨none, 2⟩).events = [bytes "/m.ko"] := by
  refine ⟨by decide, by decide, by decide⟩

/-! ## Order of the records of one module -/

theorem tagLoop_step (w under : Nat) (buf : List Nat) (field : Option (List Nat)) (tags : Nat)
    (fuel j : Nat) (p : List Nat) (rest : List Event)
    (hj : (1 <<< j) &&& (OPT_TAGS + OPT_F) ≠ 0)
    (hp : (if (1 <<< j) &&& OPT_TAGS ≠ 0 then shortcuts[j]? else field) = some p)
    (ih : (tagLoop w under buf field tags fuel (j + 1)).events <+: rest ∧
      ((tagLoop w under buf field tags fuel (j + 1)).outcome = .done →
        (tagLoop w under buf field tags fuel (j + 1)).events = rest)) :
    (tagLoop w under buf field tags (fuel + 1) j).events <+:
        (if (1 <<< j) &&& tags ≠ 0 then recordsOf w under buf tags j p else []) ++ rest ∧
      ((tagLoop w under buf field tags (fuel + 1) j).outcome = .done →
        (tagLoop w under buf field tags (fuel + 1) j).events =
          (if (1 <<< j) &&& tags ≠ 0 then recordsOf w under buf tags j p else []) ++ rest) := by
  rw [tagLoop]
  simp only [hj, if_false]
  by_cases hb : (1 <<< j) &&& tags = 0
  · simpa [hb] using ih
  · simp only [hb, if_false, hp, ne_eq, not_false_eq_true, if_true]
    cases hsc : (scan w under buf p).outcome
    · simp only [recordsOf]
      exact ⟨(List.prefix_append_right_inj _).mpr ih.1, fun hd => by rw [ih.2 hd]⟩
    all_goals
      simp only [recordsOf]
      exact ⟨List.prefix_append _ _, fun hd => by simp at hd⟩

theorem tagLoop_end (w under : Nat) (buf : List Nat) (field : Option (List Nat)) (tags : Nat)
    (fuel : Nat) : tagLoop w under buf field tags (fuel + 1) 13 = ⟨[], .done⟩ := by
  rw [tagLoop]
  have h : (1 <<< 13) &&& (OPT_TAGS + OPT_F) = 0 := by decide
  rw [if_pos h]

theorem tagLoop_shortcut (w under : Nat) (buf : List Nat) (field : Option (List Nat)) (tags : Nat)
    (fuel j : Nat) (p : List Nat) (rest : List Event) (h1 : 1 ≤ j) (h11 : j ≤ 11)
    (hp : shortcuts[j]? = some p)
    (ih : (tagLoop w under buf field tags fuel (j + 1)).events <+: rest ∧
      ((tagLoop w under buf field tags fuel (j + 1)).outcome = .done →
        (tagLoop w under buf field tags fuel (j + 1)).events = rest)) :
    (tagLoop w under buf field tags (fuel + 1) j).events <+:
        (if (1 <<< j) &&& tags ≠ 0 then recordsOf w under buf tags j p else []) ++ rest ∧
      ((tagLoop w under buf field tags (fuel + 1) j).outcome = .done →
        (tagLoop w under buf field tags (fuel + 1) j).events =
          (if (1 <<< j) &&& tags ≠ 0 then recordsOf w under buf tags j p else []) ++ rest) := by
  have hj : (1 <<< j) &&& (OPT_TAGS + OPT_F) ≠ 0 := by
    interval_cases j <;> decide
  have hs : (1 <<< j) &&& OPT_TAGS ≠ 0 := by
    interval_cases j <;> decide
  exact tagLoop_step w under buf field tags fuel j p rest hj ((if_pos hs).trans hp) ih

theorem tagLoop_field (w under : Nat) (buf : List Nat) (field : Option (List Nat)) (tags : Nat)
    (hF : field.isSome = true → (1 <<< 12) &&& tags ≠ 0) :
    (tagLoop w under buf field tags 2 12).events <+: freeFormRecords w under buf tags field ∧
      ((tagLoop w under buf field tags 2 12).outcome = .done →
        (tagLoop w under buf field tags 2 12).events = freeFormRecords w under buf tags field) := by
  have h1 : (1 <<< 12) &&& (OPT_TAGS + OPT_F) ≠ 0 := by decide
  have h2 : ¬ (1 <<< 12) &&& OPT_TAGS ≠ 0 := by decide
  cases field with
  | none =>
    rw [tagLoop, if_neg h1]
    by_cases hb : (1 <<< 12) &&& tags = 0
    · rw [if_pos hb, tagLoop_end]
      exact ⟨List.prefix_refl _, fun _ => rfl⟩
    · rw [if_neg hb, if_neg h2]
      exact ⟨List.prefix_refl _, fun hd => by cases hd⟩
  | some f =>
    have h := tagLoop_step w under buf (some f) tags 1 12 f [] h1 (if_neg h2)
      (by rw [tagLoop_end]; exact ⟨List.prefix_refl _, fun _ => rfl⟩)
    rw [if_pos (hF rfl), List.append_nil] at h
    exact h

theorem filter_flatMap {α β : Type} (q : α → Bool) (f : α → List β) (l : List α) :
    (l.filter q).flatMap f = l.flatMap (fun x => if q x then f x else []) := by
  induction l with
  | nil => rfl
  | cons a l ih =>
    by_cases ha : q a
    · simp [List.filter_cons, ha, ih]
    · simp [List.filter_cons, ha, ih]

theorem or_OPT_F_bit (t : Nat) : (1 <<< 12) &&& (t ||| OPT_F) ≠ 0 := by
  intro h0
  have h := congrArg (fun n => Nat.testBit n 12) h0
  simp only [Nat.testBit_and, Nat.testBit_or, OPT_F, Nat.one_shiftLeft, Nat.testBit_two_pow_self,
    Nat.zero_testBit, Bool.or_true, Bool.and_true] at h
  exact Bool.noConfusion h

theorem tagLoop_spec (w under : Nat) (buf : List Nat) (env : modinfo_env) :
    (tagLoop w under buf env.field (localTags env) 13 1).events <+: fieldRecords w under buf env ∧
      ((tagLoop w under buf env.field (localTags env) 13 1).outcome = .done →
        (tagLoop w under buf env.field (localTags env) 13 1).events = fieldRecords w under buf env) := by
  have hF : env.field.isSome = true → (1 <<< 12) &&& localTags env ≠ 0 := by
    intro hs
    unfold localTags
    rw [if_pos hs]
    exact or_OPT_F_bit _
  have h12 := tagLoop_field w under buf env.field (localTags env) hF
  have h11 := tagLoop_shortcut w under buf env.field (localTags env) 2 11 (bytes "firmware") _
    (by decide) (by decide) rfl h12
  have h10 := tagLoop_shortcut w under buf env.field (localTags env) 3 10 (bytes "parm") _
    (by decide) (by decide) rfl h11
  have h9 := tagLoop_shortcut w under buf env.field (localTags env) 4 9 (bytes "vermagic") _
    (by decide) (by decide) rfl h10
  have h8 := tagLoop_shortcut w under buf env.field (localTags env) 5 8 (bytes "uts_release") _
    (by decide) (by decide) rfl h9
  have h7 := tagLoop_shortcut w under buf env.field (localTags env) 6 7 (bytes "depends") _
    (by decide) (by decide) rfl h8
  have h6 := tagLoop_shortcut w under buf env.field (localTags env) 7 6 (bytes "srcversion") _
    (by decide) (by decide) rfl h7
  have h5 := tagLoop_shortcut w under buf env.field (localTags env) 8 5 (bytes "alias") _
    (by decide) (by decide) rfl h6
  have h4 := tagLoop_shortcut w under buf env.field (localTags env) 9 4 (bytes "version") _
    (by decide) (by decide) rfl h5
  have h3 := tagLoop_shortcut w under buf env.field (localTags env) 10 3 (bytes "description") _
    (by decide) (by decide) rfl h4
  have h2 := tagLoop_shortcut w under buf env.field (localTags env) 11 2 (bytes "author") _
    (by decide) (by decide) rfl h3
  have h1 := tagLoop_shortcut w under buf env.field (localTags env) 12 1 (bytes "license") _
    (by decide) (by decide) rfl h2
  unfold fieldRecords selectedShortcuts
  rw [filter_flatMap]
  simp only [shortcuts, List.enum, List.enumFrom, List.tail_cons, List.flatMap_cons,
    List.flatMap_nil, List.append_nil, decide_eq_true_eq, List.append_assoc]
  exact h1

/-- For a module that opens, the calls of `display` after the filename record
are an initial part of the list made, field by field, of the records of the
selected shortcuts in table order (license, author, ..., firmware), each field
with all its values in buffer order, followed by the records of the free-form
field when one is set; they are the whole list when no scan leaves the image. -/
theorem modinfo_record_order (w under : Nat) (flat : Bool) (dir : List Nat)
    (fs : List Nat → Option (List Nat)) (path version : List Nat) (env : modinfo_env)
    (buf : List Nat) (hopen : (acquire flat dir fs path version).2 = some buf) :
    ∃ shown, displays (modinfo w under flat dir fs path version env).events =
        filenameRecord path env ++ shown ∧
      shown <+: fieldRecords w under buf env ∧
      ((modinfo w under flat dir fs path version env).outcome = .done →
        shown = fieldRecords w under buf env) := by
  obtain ⟨-, h2, -⟩ := acquire_spec flat dir fs path version
  have hf := filenameRecord_all_display path env
  have ht := tagLoop_all_display w under buf env.field (localTags env) 13 1
  obtain ⟨hs1, hs2⟩ := tagLoop_spec w under buf env
  rw [modinfo_events]
  cases ha : acquire flat dir fs path version with
  | mk tried m =>
    rw [ha] at h2 hopen
    simp only at hopen
    subst hopen
    refine ⟨(tagLoop w under buf env.field (localTags env) 13 1).events, ?_, hs1, hs2⟩
    simp only [displays_append, displays_of_all _ hf, displays_of_all _ ht, h2, List.append_nil]

/-- The theorem `modinfo_record_order` on a module with two licenses and an
author, asked for author and license. -/
theorem modinfo_record_order_witness :
    (acquire true (bytes "/lib/modules")
        (fun p => if p = bytes "m.ko" then
          some ([0] ++ bytes "license=GPL" ++ [0, 128] ++ bytes "author=me" ++ [0] ++
            bytes "license=BSD" ++ [0]) else none)
        (bytes "m.ko") (bytes "3.4")).2 =
      some ([0] ++ bytes "license=GPL" ++ [0, 128] ++ bytes "author=me" ++ [0] ++
        bytes "license=BSD" ++ [0]) ∧
    ∃ shown, displays (modinfo 64 0 true (bytes "/lib/modules")
        (fun p => if p = bytes "m.ko" then
          some ([0] ++ bytes "license=GPL" ++ [0, 128] ++ bytes "author=me" ++ [0] ++
            bytes "license=BSD" ++ [0]) else none)
        (bytes "m.ko") (bytes "3.4") ⟨none, 6⟩).events =
        filenameRecord (bytes "m.ko") ⟨none, 6⟩ ++ shown ∧
      shown <+: fieldRecords 64 0 ([0] ++ bytes "license=GPL" ++ [0, 128] ++ bytes "author=me" ++
        [0] ++ bytes "license=BSD" ++ [0]) ⟨none, 6⟩ ∧
      ((modinfo 64 0 true (bytes "/lib/modules")
        (fun p => if p = bytes "m.ko" then
          some ([0] ++ bytes "license=GPL" ++ [0, 128] ++ bytes "author=me" ++ [0] ++
            bytes "license=BSD" ++ [0]) else none)
        (bytes "m.ko") (bytes "3.4") ⟨none, 6⟩).outcome = .done →
        shown = fieldRecords 64 0 ([0] ++ bytes "license=GPL" ++ [0, 128] ++ bytes "author=me" ++
          [0] ++ bytes "license=BSD" ++ [0]) ⟨none, 6⟩) :=
  ⟨by decide, modinfo_record_order 64 0 true (bytes "/lib/modules") _ (bytes "m.ko") (bytes "3.4")
    ⟨none, 6⟩ _ (by decide)⟩

/-! ## The index pass -/

/-- The pattern match on examples: a bracket expression, a negated one, a range,
a named class, a quoted `*`, and a `[` that is not closed. -/
theorem fnmatch_eval :
    fnmatch (bytes "sn[cd]_a") (bytes "snd_a") = true ∧
      fnmatch (bytes "sn[!cd]_a") (bytes "snd_a") = false ∧
      fnmatch (bytes "sn[a-e]_?") (bytes "snd_a") = true ∧
      fnmatch (bytes "snd_[[:digit:]]") (bytes "snd_7") = true ∧
      fnmatch (bytes "snd\\*") (bytes "snd_a") = false ∧
      fnmatch (bytes "snd\\*") (bytes "snd*") = true ∧
      fnmatch (bytes "snd[") (bytes "snd[") = true ∧
      fnmatch (bytes "s*a") (bytes "snd_a") = true := by
  refine ⟨by decide, by decide, by decide, by decide, by decide, by decide, by decide,
    by decide⟩

/-- The index pass on two records that both match the one argument `snd*`: only
the first record is handed to `modinfo()`, because the argument is the empty
string by the time the second record is read. -/
theorem indexPass_glob_consumed :
    indexPass fnmatch (fun p => filename2modname (bb_basename p))
        [bytes "kernel/snd-a.ko:", bytes "kernel/snd-b.ko:"] [bytes "snd*"] =
      ([bytes "kernel/snd-a.ko"], [[]]) := by
  decide

/-! ## Completeness of the scan -/

theorem getElem?_lt_of_eq_some {l : List Nat} {i b : Nat} (h : l[i]? = some b) : i < l.length := by
  by_contra hge
  rw [List.getElem?_eq_none (by omega)] at h
  simp at h

theorem image_drop (buf : List Nat) (q : Nat) (h : q ≤ buf.length) :
    (image buf).drop q = buf.drop q ++ [0] := by
  unfold image
  exact List.drop_append_of_le_length h

theorem scanStep_hit_tag (w under : Nat) (buf pat : List Nat) (off q : Nat)
    (hq : memchr (image buf) off (pat.headD 0) (size_sub w buf.length off) = .hit q)
    (ht : tagAt buf pat q) :
    scanStep w under buf pat off =
      .emit q (valueAt buf pat q) (q + pat.length + 1 + (valueAt buf pat q).length + 1) := by
  obtain ⟨h1, h2, h3, b, hb1, hb2⟩ := ht
  have hlt : q + pat.length < buf.length := getElem?_lt_of_eq_some h3
  have hp : pat <+: (image buf).drop q := by
    rw [image_drop buf q (by omega)]
    have := List.take_prefix pat.length (buf.drop q)
    rw [h2] at this
    exact this.trans (List.prefix_append _ _)
  have h61 : (image buf)[q + pat.length]? = some 61 := by
    rw [image_getElem?_lt _ _ hlt]; exact h3
  have hq0 : ¬ q = 0 := by omega
  have hbd : (image buf).getD (q - 1) 0 &&& 0x7F = 0 := by
    have hl : q - 1 < buf.length := by omega
    rw [List.getD_eq_getElem?_getD, image_getElem?_lt buf _ hl, hb1]
    exact hb2
  have hc : cstring (image buf) (q + pat.length + 1) = valueAt buf pat q := by
    rw [cstring_image buf _ (by omega)]; rfl
  have hbb : byteBefore under buf q &&& 0x7F = 0 := by
    unfold byteBefore
    rw [if_neg hq0]
    exact hbd
  unfold scanStep
  rw [hq]
  simp only [is_prefixed_with_eq, if_pos hp, h61, if_true, if_pos hbb, strlen, hc]

theorem scanStep_hit_cases (w under : Nat) (buf pat : List Nat) (off q : Nat)
    (hq : memchr (image buf) off (pat.headD 0) (size_sub w buf.length off) = .hit q) :
    scanStep w under buf pat off = .next (q + 1) ∨
      ∃ v off1, scanStep w under buf pat off = .emit q v off1 := by
  unfold scanStep
  rw [hq]
  simp only [is_prefixed_with_eq]
  by_cases hp : pat <+: (image buf).drop q
  · simp only [if_pos hp]
    by_cases h61 : (image buf)[q + pat.length]? = some 61
    · simp only [h61, if_true]
      by_cases hbd : byteBefore under buf q &&& 0x7F = 0
      · right
        simp only [if_pos hbd]
        exact ⟨_, _, rfl⟩
      · left
        simp only [if_neg hbd]
    · left
      simp only [h61, if_false]
  · left
    simp only [if_neg hp]

theorem tagAt_of_accepted_not_start (under : Nat) (buf pat : List Nat) (i : Nat)
    (h : acceptedAt under buf pat i) (hstart : ¬ (pat ++ [61]) <+: buf) : tagAt buf pat i := by
  by_cases hi : i = 0
  · subst hi
    exact absurd (accepted_zero_starts under buf pat h) hstart
  · exact tagAt_of_accepted under buf pat i h (by omega)

theorem tagAt_head (buf pat : List Nat) (i : Nat) (hpat : pat ≠ []) (ht : tagAt buf pat i) :
    (image buf)[i]? = some (pat.headD 0) ∧ i < buf.length := by
  obtain ⟨h1, h2, h3, -⟩ := ht
  have hlt : i + pat.length < buf.length := getElem?_lt_of_eq_some h3
  obtain ⟨c, tl, rfl⟩ := List.exists_cons_of_ne_nil hpat
  have hi : i < buf.length := by omega
  refine ⟨?_, hi⟩
  rw [image_getElem?_lt buf i hi]
  have hd : buf.drop i = buf[i] :: buf.drop (i + 1) := List.drop_eq_getElem_cons hi
  rw [hd] at h2
  simp only [List.length_cons, List.take_succ_cons, List.cons.injEq] at h2
  rw [List.getElem?_eq_getElem hi, h2.1]
  rfl

theorem scanFrom_reaches (w under : Nat) (buf pat : List Nat) (i : Nat)
    (hw : buf.length < 2 ^ w) (hpat : pat ≠ []) (ht : tagAt buf pat i)
    (hstart : ¬ (pat ++ [61]) <+: buf)
    (hfree : ∀ q, q < i → tagAt buf pat q →
      q + pat.length + 1 + (valueAt buf pat q).length < i) :
    ∀ d c, i - c = d → c ≤ i → (i, valueAt buf pat i) ∈ (scanFrom w under buf pat c).out := by
  obtain ⟨hhead, hilt⟩ := tagAt_head buf pat i hpat ht
  intro d
  induction d using Nat.strong_induction_on with
  | _ d ih =>
    intro c hd hc
    have hsz : size_sub w buf.length c = buf.length - c := size_sub_of_le w _ _ hw (by omega)
    obtain ⟨q, hq, hq1, hq2⟩ := memchr_find (image buf) c (pat.headD 0)
      (size_sub w buf.length c) i hc (by rw [hsz]; omega) hhead
    rw [scanFrom_step w under buf pat c (by omega)]
    rcases scanStep_hit_cases w under buf pat c q hq with hn | ⟨v, off1, he⟩
    · rw [hn]
      have hqi : q ≠ i := by
        intro h
        subst h
        rw [scanStep_hit_tag w under buf pat c q hq ht] at hn
        cases hn
      exact ih (i - (q + 1)) (by omega) (q + 1) rfl (by omega)
    · rw [he]
      obtain ⟨-, e2, e3, e4, -⟩ := scanStep_emit w under buf pat c q off1 v he
      by_cases hqi : q = i
      · subst hqi
        rw [e3]
        exact List.mem_cons_self _ _
      · have hlt : q < i := by omega
        have := hfree q hlt (tagAt_of_accepted_not_start under buf pat q e2 hstart)
        rw [← e3] at this
        apply List.mem_cons_of_mem
        exact ih (i - off1) (by omega) off1 rfl (by omega)

theorem tagAt_record (pre name rest : List Nat) (b : Nat) (hb : b &&& 0x7F = 0) :
    tagAt (pre ++ b :: (name ++ 61 :: rest)) name (pre.length + 1) := by
  refine ⟨by omega, ?_, ?_, b, ?_, hb⟩
  · have : pre ++ b :: (name ++ 61 :: rest) = (pre ++ [b]) ++ (name ++ 61 :: rest) := by simp
    rw [this, List.drop_left' (by simp)]
    simp
  · have : pre ++ b :: (name ++ 61 :: rest) = (pre ++ [b] ++ name) ++ (61 :: rest) := by simp
    have hl : (pre ++ [b] ++ name).length = pre.length + 1 + name.length := by
      simp only [List.length_append, List.length_singleton]
    rw [this, List.getElem?_append_right (by omega), hl, Nat.sub_self]
    simp
  · rw [Nat.add_sub_cancel, List.getElem?_append_right (le_refl _)]
    simp

theorem valueAt_record (pre name value post : List Nat) (b : Nat) (hv : ∀ c ∈ value, c ≠ 0) :
    valueAt (pre ++ b :: (name ++ 61 :: (value ++ 0 :: post))) name (pre.length + 1) = value := by
  unfold valueAt
  have : pre ++ b :: (name ++ 61 :: (value ++ 0 :: post)) =
      (pre ++ [b] ++ name ++ [61]) ++ (value ++ 0 :: post) := by simp
  rw [this, List.drop_left' (by simp; omega)]
  exact takeWhile_append_nul value post hv

/-- C2 (as stated, refuted): the image `\0a=x\x80a=y\0` holds the well-formed
record `\x80a=y\0`, but the scan of `a` emits the single value `x\x80a=y`, which
runs over that record, and never the value `y`. -/
theorem scan_misses_record_inside_value :
    (scan 64 0 ([0] ++ [97] ++ [61] ++ [120] ++ ([128] ++ [97] ++ [61] ++ [121] ++ [0])) [97]).out =
        [(1, [120, 128, 97, 61, 121])] ∧
      [121] ∉ (scan 64 0 ([0] ++ [97] ++ [61] ++ [120] ++
        ([128] ++ [97] ++ [61] ++ [121] ++ [0])) [97]).out.map Prod.snd := by
  constructor <;> decide

/-- C2 (amended): if the buffer holds a boundary byte (low seven bits zero), the
non-empty name, `=`, a NUL-free value and a NUL, if the buffer does not itself
start with the name and `=`, and if every tag record of the name that starts
before this one has its terminating NUL before this record's name, then the scan
of the name emits exactly the value for this record. -/
theorem scan_finds_record (w under : Nat) (pre name value post : List Nat) (b : Nat)
    (hw : (pre ++ b :: (name ++ 61 :: (value ++ 0 :: post))).length < 2 ^ w)
    (hname : name ≠ []) (hv : ∀ c ∈ value, c ≠ 0) (hb : b &&& 0x7F = 0)
    (hstart : ¬ (name ++ [61]) <+: pre ++ b :: (name ++ 61 :: (value ++ 0 :: post)))
    (hfree : ∀ q, q < pre.length + 1 →
      tagAt (pre ++ b :: (name ++ 61 :: (value ++ 0 :: post))) name q →
      q + name.length + 1 +
        (valueAt (pre ++ b :: (name ++ 61 :: (value ++ 0 :: post))) name q).length <
          pre.length + 1) :
    (pre.length + 1, value) ∈
      (scan w under (pre ++ b :: (name ++ 61 :: (value ++ 0 :: post))) name).out := by
  have ht := tagAt_record pre name (value ++ 0 :: post) b hb
  have h := scanFrom_reaches w under _ name (pre.length + 1) hw hname ht hstart hfree
    (pre.length + 1) 0 rfl (Nat.zero_le _)
  rw [valueAt_record pre name value post b hv] at h
  exact h

/-- Witness of `scan_finds_record`: the image `\0a=x\0\x80a=y\0\x07` and its
second record. -/
theorem scan_finds_record_witness :
    ([0, 97, 61, 120, 0] ++ 128 :: ([97] ++ 61 :: ([121] ++ 0 :: [7])) : List Nat).length < 2 ^ 64 ∧
    ([97] : List Nat) ≠ [] ∧ (∀ c ∈ ([121] : List Nat), c ≠ 0) ∧ 128 &&& 0x7F = 0 ∧
    (¬ ([97] ++ [61]) <+: ([0, 97, 61, 120, 0] ++ 128 :: ([97] ++ 61 :: ([121] ++ 0 :: [7])))) ∧
    (∀ q, q < ([0, 97, 61, 120, 0] : List Nat).length + 1 →
      tagAt ([0, 97, 61, 120, 0] ++ 128 :: ([97] ++ 61 :: ([121] ++ 0 :: [7]))) [97] q →
      q + ([97] : List Nat).length + 1 +
        (valueAt ([0, 97, 61, 120, 0] ++ 128 :: ([97] ++ 61 :: ([121] ++ 0 :: [7]))) [97] q).length <
          ([0, 97, 61, 120, 0] : List Nat).length + 1) ∧
    (([0, 97, 61, 120, 0] : List Nat).length + 1, [121]) ∈
      (scan 64 0 ([0, 97, 61, 120, 0] ++ 128 :: ([97] ++ 61 :: ([121] ++ 0 :: [7]))) [97]).out :=
  ⟨by decide, by decide, by decide, by decide, by decide, by decide,
    scan_finds_record 64 0 [0, 97, 61, 120, 0] [97] [121] [7] 128 (by decide) (by decide)
      (by decide) (by decide) (by decide) (by decide)⟩

theorem takeWhile_length_le_of_nul (l : List Nat) (k : Nat) (h : l[k]? = some 0) :
    (l.takeWhile (fun b => b != 0)).length ≤ k := by
  induction l generalizing k with
  | nil => simp at h
  | cons a l ih =>
    cases k with
    | zero =>
      simp only [List.getElem?_cons_zero, Option.some.injEq] at h
      subst h
      simp
    | succ k =>
      rw [List.getElem?_cons_succ] at h
      rw [List.takeWhile_cons]
      split
      · simp only [List.length_cons]
        have := ih k h
        omega
      · simp

/-- A record whose boundary byte is NUL is never inside the value of an earlier
record: for a name without NUL bytes, every tag record of the name that starts
before it ends before it. -/
theorem tag_before_nul_boundary (pre name rest : List Nat) (hnz : ∀ c ∈ name, c ≠ 0) (q : Nat)
    (hq : q < pre.length + 1) (ht : tagAt (pre ++ 0 :: rest) name q) :
    q + name.length + 1 + (valueAt (pre ++ 0 :: rest) name q).length < pre.length + 1 := by
  obtain ⟨h1, h2, h3, -⟩ := ht
  have hz : (pre ++ 0 :: rest)[pre.length]? = some 0 := by
    rw [List.getElem?_append_right (le_refl _)]
    simp
  have hstartv : q + name.length + 1 ≤ pre.length := by
    by_contra hlt
    have hle : pre.length ≤ q + name.length := by omega
    by_cases he : pre.length = q + name.length
    · rw [he, h3] at hz
      simp at hz
    · have hk : pre.length - q < name.length := by omega
      have hget : ((pre ++ 0 :: rest).drop q).take name.length = name := h2
      have h4 : name[pre.length - q]? = some 0 := by
        rw [← hget, List.getElem?_take_of_lt hk, List.getElem?_drop,
          show q + (pre.length - q) = pre.length by omega]
        exact hz
      have hmem : (0 : Nat) ∈ name := List.getElem?_mem h4
      exact hnz 0 hmem rfl
  have hlen := takeWhile_length_le_of_nul ((pre ++ 0 :: rest).drop (q + name.length + 1))
    (pre.length - (q + name.length + 1))
    (by rw [List.getElem?_drop,
          show q + name.length + 1 + (pre.length - (q + name.length + 1)) = pre.length by omega]
        exact hz)
  unfold valueAt
  omega

/-- Records with the boundary byte NUL are always found: if the buffer holds a
NUL byte, the non-empty NUL-free name, `=`, a NUL-free value and a NUL, and does
not itself start with the name and `=`, the scan of the name emits the value. -/
theorem scan_finds_nul_record (w under : Nat) (pre name value post : List Nat)
    (hw : (pre ++ 0 :: (name ++ 61 :: (value ++ 0 :: post))).length < 2 ^ w)
    (hname : name ≠ []) (hnz : ∀ c ∈ name, c ≠ 0) (hv : ∀ c ∈ value, c ≠ 0)
    (hstart : ¬ (name ++ [61]) <+: pre ++ 0 :: (name ++ 61 :: (value ++ 0 :: post))) :
    (pre.length + 1, value) ∈
      (scan w under (pre ++ 0 :: (name ++ 61 :: (value ++ 0 :: post))) name).out := by
  have ht := tagAt_record pre name (value ++ 0 :: post) 0 (by decide)
  have h := scanFrom_reaches w under _ name (pre.length + 1) hw hname ht hstart
    (fun q hq htq => tag_before_nul_boundary pre name _ hnz q hq htq)
    (pre.length + 1) 0 rfl (Nat.zero_le _)
  rw [valueAt_record pre name value post 0 hv] at h
  exact h

theorem ascii_and_ne_zero (c : Nat) (h0 : 0 < c) (h1 : c < 128) : c &&& 0x7F ≠ 0 := by
  have h := Nat.and_pow_two_sub_one_eq_mod c 7
  have h2 : (2 : Nat) ^ 7 - 1 = 0x7F := by norm_num
  rw [h2] at h
  rw [h, Nat.mod_eq_of_lt (by norm_num; omega)]
  omega

theorem scan_records_aux (w under : Nat) (name : List Nat) (hname : name ≠ [])
    (hascii : ∀ c ∈ name, 0 < c ∧ c < 128) :
    ∀ (recs : List (Nat × List Nat)) (pre buf : List Nat),
      buf = pre ++ recordsImage name recs → buf.length < 2 ^ w →
      (∀ r ∈ recs, r.1 &&& 0x7F = 0) → (∀ r ∈ recs, ∀ c ∈ r.2, c ≠ 0) →
      (scanFrom w under buf name pre.length).out.map Prod.snd = recs.map Prod.snd ∧
        (scanFrom w under buf name pre.length).outcome = .done := by
  intro recs
  induction recs with
  | nil =>
    intro pre buf hbuf hw _ _
    have hb : buf = pre := by rw [hbuf]; simp [recordsImage]
    subst hb
    rw [scanFrom_step w under buf name buf.length (by omega)]
    have hs : scanStep w under buf name buf.length = .stop .done := by
      unfold scanStep
      rw [size_sub_of_le w _ _ hw (le_refl _), Nat.sub_self]
      unfold memchr
      rw [memchrAux_zero]
    rw [hs]
    exact ⟨rfl, rfl⟩
  | cons r rest ih =>
    intro pre buf hbuf hw hb hv
    have e1 : buf = pre ++ r.1 :: (name ++ 61 :: (r.2 ++ 0 :: recordsImage name rest)) := by
      rw [hbuf]; simp [recordsImage, tagRecord]
    have e2 : buf = (pre ++ tagRecord name r) ++ recordsImage name rest := by
      rw [hbuf]; simp [recordsImage]
    have hb0 : r.1 &&& 0x7F = 0 := hb r (by simp)
    have hv0 : ∀ c ∈ r.2, c ≠ 0 := hv r (by simp)
    have ht : tagAt buf name (pre.length + 1) := by
      rw [e1]; exact tagAt_record pre name _ r.1 hb0
    have hval : valueAt buf name (pre.length + 1) = r.2 := by
      rw [e1]; exact valueAt_record pre name r.2 _ r.1 hv0
    obtain ⟨hhead, hilt⟩ := tagAt_head buf name _ hname ht
    have hsz : size_sub w buf.length pre.length = buf.length - pre.length :=
      size_sub_of_le w _ _ hw (by omega)
    obtain ⟨q, hq, hq1, hq2⟩ := memchr_find (image buf) pre.length (name.headD 0)
      (size_sub w buf.length pre.length) (pre.length + 1) (by omega) (by rw [hsz]; omega) hhead
    have hqne : q ≠ pre.length := by
      intro hqe
      subst hqe
      obtain ⟨-, -, hm, -⟩ := memchr_hit _ _ _ _ _ hq
      rw [image_getElem?_lt buf _ (by omega)] at hm
      have hm1 : buf[pre.length]? = some r.1 := by
        rw [e1, List.getElem?_append_right (le_refl _)]
        simp
      rw [hm1] at hm
      simp only [Option.some.injEq] at hm
      obtain ⟨c, tl, rfl⟩ := List.exists_cons_of_ne_nil hname
      simp only [List.headD_cons] at hm
      have hc := hascii c (by simp)
      exact ascii_and_ne_zero c hc.1 hc.2 (hm ▸ hb0)
    have hqe : q = pre.length + 1 := by omega
    subst hqe
    have hstep := scanStep_hit_tag w under buf name pre.length _ hq ht
    rw [hval] at hstep
    have hlen : pre.length + 1 + name.length + 1 + r.2.length + 1 =
        (pre ++ tagRecord name r).length := by
      simp [tagRecord]; omega
    rw [hlen] at hstep
    rw [scanFrom_step w under buf name pre.length (by omega), hstep]
    obtain ⟨ih1, ih2⟩ := ih (pre ++ tagRecord name r) buf e2 hw
      (fun x hx => hb x (by simp [hx])) (fun x hx => hv x (by simp [hx]))
    refine ⟨?_, ih2⟩
    simp only [List.map_cons]
    rw [ih1]

/-- C3: for a non-empty ASCII name and any list of NUL-free values, the scan of
the buffer that consists of the records (boundary byte with low seven bits zero,
name, `=`, value, NUL), one after the other, emits exactly the values, all of
them and in buffer order, and ends regularly. -/
theorem scan_records (w under : Nat) (name : List Nat) (recs : List (Nat × List Nat))
    (hname : name ≠ []) (hascii : ∀ c ∈ name, 0 < c ∧ c < 128)
    (hb : ∀ r ∈ recs, r.1 &&& 0x7F = 0) (hv : ∀ r ∈ recs, ∀ c ∈ r.2, c ≠ 0)
    (hw : (recordsImage name recs).length < 2 ^ w) :
    (scan w under (recordsImage name recs) name).out.map Prod.snd = recs.map Prod.snd ∧
      (scan w under (recordsImage name recs) name).outcome = .done := by
  have h := scan_records_aux w under name hname hascii recs [] (recordsImage name recs)
    (by simp) hw hb hv
  rw [scan_eq_scanFrom]
  exact h

/-- Witness of `scan_records`: the records `\0a=x\0` and `\x80a=yz\0`. -/
theorem scan_records_witness :
    ([97] : List Nat) ≠ [] ∧ (∀ c ∈ ([97] : List Nat), 0 < c ∧ c < 128) ∧
    (∀ r ∈ ([(0, [120]), (128, [121, 122])] : List (Nat × List Nat)), r.1 &&& 0x7F = 0) ∧
    (∀ r ∈ ([(0, [120]), (128, [121, 122])] : List (Nat × List Nat)), ∀ c ∈ r.2, c ≠ 0) ∧
    (recordsImage [97] [(0, [120]), (128, [121, 122])]).length < 2 ^ 64 ∧
    (scan 64 0 (recordsImage [97] [(0, [120]), (128, [121, 122])]) [97]).out.map Prod.snd =
        ([(0, [120]), (128, [121, 122])] : List (Nat × List Nat)).map Prod.snd ∧
      (scan 64 0 (recordsImage [97] [(0, [120]), (128, [121, 122])]) [97]).outcome = .done :=
  ⟨by decide, by decide, by decide, by decide, by decide,
    scan_records 64 0 [97] [(0, [120]), (128, [121, 122])] (by decide) (by decide) (by decide)
      (by decide) (by decide)⟩

/-! ## The format of a record -/

theorem putBlanks_eq (fuel n : Nat) (h : 16 - n ≤ fuel) :
    putBlanks fuel n = List.replicate (16 - n) 32 := by
  induction fuel generalizing n with
  | zero =>
    have h0 : 16 - n = 0 := by omega
    rw [h0]
    rfl
  | succ f ih =>
    rw [putBlanks]
    by_cases hn : n < 16
    · rw [if_pos hn, ih (n + 1) (by omega)]
      have h1 : 16 - n = (16 - (n + 1)) + 1 := by omega
      rw [h1, List.replicate_succ]
    · rw [if_neg hn]
      have h0 : 16 - n = 0 := by omega
      rw [h0]
      rfl

/-- C19: a labelled record written by `display` is the pattern, a `:`, then
`max(0, 15 - |pattern|)` blanks, so that the data starts at column
`max(16, |pattern| + 1)`, then the data and one terminator byte; an unlabelled
record is the data and one terminator byte. -/
theorem display_format (option_mask32 : Nat) (data pattern : List Nat) :
    display option_mask32 data pattern true =
        pattern ++ [58] ++ List.replicate (15 - pattern.length) 32 ++ data ++
          [if option_mask32 &&& OPT_0 ≠ 0 then 0 else 10] ∧
      ((15 - pattern.length : Nat) : Int) = max 0 (15 - (pattern.length : Int)) ∧
      (pattern ++ [58] ++ List.replicate (15 - pattern.length) 32).length =
        max 16 (pattern.length + 1) ∧
      display option_mask32 data pattern false =
        data ++ [if option_mask32 &&& OPT_0 ≠ 0 then 0 else 10] := by
  refine ⟨?_, by omega, ?_, ?_⟩
  · unfold display
    rw [if_pos rfl, putBlanks_eq 16 (pattern.length + 1) (by omega)]
    have h : 16 - (pattern.length + 1) = 15 - pattern.length := by omega
    rw [h]
  · simp only [List.length_append, List.length_singleton, List.length_replicate]
    omega
  · unfold display
    simp

/-! ## Which records carry a label -/

/-- C18: every record the loop over the tags of `modinfo()` displays belongs to
a scanned tag `j`, a selected shortcut 1..11 with its table name or the free-form
field as tag 12, and is displayed with the flag `(1<<j) != tags`, `tags` being
the shortcut mask with the free-form bit added when a field is set: the value is
written without label exactly when `tags` is the single bit of `j`, and with the
label of the tag otherwise. -/
theorem tag_label_iff_only_tag (w under : Nat) (buf : List Nat) (env : modinfo_env) (e : Event)
    (he : e ∈ (tagLoop w under buf env.field (localTags env) 13 1).events) :
    ∃ j p v, ((j, p) ∈ selectedShortcuts (localTags env) ∨ (j = 12 ∧ env.field = some p)) ∧
      v ∈ (scan w under buf p).out.map Prod.snd ∧
      e = Event.display v p (decide ((1 <<< j) ≠ localTags env)) ∧
      ∀ m, display m v p (decide ((1 <<< j) ≠ localTags env)) =
        if (1 <<< j) = localTags env then v ++ [if m &&& OPT_0 ≠ 0 then 0 else 10]
        else p ++ [58] ++ List.replicate (15 - p.length) 32 ++ v ++
          [if m &&& OPT_0 ≠ 0 then 0 else 10] := by
  have hmem := (tagLoop_spec w under buf env).1.subset he
  have hfmt : ∀ (j : Nat) (p v : List Nat) (m : Nat),
      display m v p (decide ((1 <<< j) ≠ localTags env)) =
        if (1 <<< j) = localTags env then v ++ [if m &&& OPT_0 ≠ 0 then 0 else 10]
        else p ++ [58] ++ List.replicate (15 - p.length) 32 ++ v ++
          [if m &&& OPT_0 ≠ 0 then 0 else 10] := by
    intro j p v m
    by_cases hj : (1 <<< j) = localTags env
    · rw [if_pos hj]
      have hd : decide ((1 <<< j) ≠ localTags env) = false := by simp [hj]
      rw [hd]
      unfold display
      simp
    · rw [if_neg hj]
      have hd : decide ((1 <<< j) ≠ localTags env) = true := by simp [hj]
      rw [hd]
      unfold display
      rw [if_pos rfl, putBlanks_eq 16 (p.length + 1) (by omega)]
      have h : 16 - (p.length + 1) = 15 - p.length := by omega
      rw [h]
  unfold fieldRecords at hmem
  rw [List.mem_append] at hmem
  rcases hmem with hs | hf
  · rw [List.mem_flatMap] at hs
    obtain ⟨jp, hjp, hrec⟩ := hs
    unfold recordsOf at hrec
    rw [List.mem_map] at hrec
    obtain ⟨iv, hiv, rfl⟩ := hrec
    exact ⟨jp.1, jp.2, iv.2, Or.inl hjp, List.mem_map.mpr ⟨iv, hiv, rfl⟩, rfl, hfmt _ _ _⟩
  · cases hfield : env.field with
    | none =>
      rw [hfield] at hf
      simp [freeFormRecords] at hf
    | some f =>
      rw [hfield] at hf
      simp only [freeFormRecords, recordsOf] at hf
      rw [List.mem_map] at hf
      obtain ⟨iv, hiv, rfl⟩ := hf
      exact ⟨12, f, iv.2, Or.inr ⟨rfl, rfl⟩, List.mem_map.mpr ⟨iv, hiv, rfl⟩, rfl, hfmt _ _ _⟩

/-- Witness of `tag_label_iff_only_tag`: the image `\0license=GPL\0` with the
license as the only tag. -/
theorem tag_label_iff_only_tag_witness :
    Event.display (bytes "GPL") (bytes "license") false ∈
        (tagLoop 64 0 ([0] ++ bytes "license=GPL" ++ [0]) (modinfo_env.mk none 2).field
          (localTags ⟨none, 2⟩) 13 1).events ∧
    ∃ j p v, ((j, p) ∈ selectedShortcuts (localTags ⟨none, 2⟩) ∨
        (j = 12 ∧ (modinfo_env.mk none 2).field = some p)) ∧
      v ∈ (scan 64 0 ([0] ++ bytes "license=GPL" ++ [0]) p).out.map Prod.snd ∧
      Event.display (bytes "GPL") (bytes "license") false =
        Event.display v p (decide ((1 <<< j) ≠ localTags ⟨none, 2⟩)) ∧
      ∀ m, display m v p (decide ((1 <<< j) ≠ localTags ⟨none, 2⟩)) =
        if (1 <<< j) = localTags ⟨none, 2⟩ then v ++ [if m &&& OPT_0 ≠ 0 then 0 else 10]
        else p ++ [58] ++ List.replicate (15 - p.length) 32 ++ v ++
          [if m &&& OPT_0 ≠ 0 then 0 else 10] :=
  ⟨by decide,
    tag_label_iff_only_tag 64 0 ([0] ++ bytes "license=GPL" ++ [0]) ⟨none, 2⟩
      (Event.display (bytes "GPL") (bytes "license") false) (by decide)⟩

/-! ## The option letters and the selection mask -/

/-- C14: the option `-F keyword` sets bit 11 of the mask, which is one of the
twelve shortcut bits of `OPT_TAGS`, the one of `firmware`: with `-F` alone the
environment selects the shortcut `firmware`, while with no option at all it
selects every shortcut, although no shortcut letter is given in either case. -/
theorem field_option_selects_firmware (kw : List Nat) :
    getopt32 [.field kw] = some (1 <<< 11, some kw) ∧
      (1 <<< 11) &&& OPT_TAGS ≠ 0 ∧
      (mkEnv (1 <<< 11) (some kw)).tags = 1 <<< 11 ∧
      selectedShortcuts (localTags (mkEnv (1 <<< 11) (some kw))) = [(11, bytes "firmware")] ∧
      getopt32 [] = some (0, none) ∧
      (mkEnv 0 none).tags = OPT_TAGS := by
  refine ⟨?_, by decide, rfl, ?_, rfl, by decide⟩
  · simp only [getopt32]
    have hp : position 'F' (optLetters optstring) = some 11 := by decide
    rw [hp]
    simp
  · have ht : localTags (mkEnv (1 <<< 11) (some kw)) = 6144 := by
      unfold localTags mkEnv
      have h1 : (1 <<< 11) &&& OPT_TAGS ≠ 0 := by decide
      simp only [h1, if_true, Option.isSome_some, ne_eq, not_false_eq_true]
      decide
    rw [ht]
    decide

/-- C13: on the image `\0author=A\0\0description=D\0\0license=L\0\0parm=P\0` the
options `-a`, `-d`, `-l` and `-p` write the bare value, while `-F author`,
`-F description`, `-F license` and `-F parm` write the value with its label: `-F`
also sets the shortcut bit 11, so the free-form field is not the only tag. -/
theorem shortcut_differs_from_field :
    scanOutput 64 0 ([0] ++ bytes "author=A" ++ [0, 0] ++ bytes "description=D" ++ [0, 0] ++
        bytes "license=L" ++ [0, 0] ++ bytes "parm=P" ++ [0]) [.flag 'a'] =
      some (bytes "A\n") ∧
    scanOutput 64 0 ([0] ++ bytes "author=A" ++ [0, 0] ++ bytes "description=D" ++ [0, 0] ++
        bytes "license=L" ++ [0, 0] ++ bytes "parm=P" ++ [0]) [.field (bytes "author")] =
      some (bytes "author:         A\n") ∧
    scanOutput 64 0 ([0] ++ bytes "author=A" ++ [0, 0] ++ bytes "description=D" ++ [0, 0] ++
        bytes "license=L" ++ [0, 0] ++ bytes "parm=P" ++ [0]) [.flag 'd'] =
      some (bytes "D\n") ∧
    scanOutput 64 0 ([0] ++ bytes "author=A" ++ [0, 0] ++ bytes "description=D" ++ [0, 0] ++
        bytes "license=L" ++ [0, 0] ++ bytes "parm=P" ++ [0]) [.field (bytes "description")] =
      some (bytes "description:    D\n") ∧
    scanOutput 64 0 ([0] ++ bytes "author=A" ++ [0, 0] ++ bytes "description=D" ++ [0, 0] ++
        bytes "license=L" ++ [0, 0] ++ bytes "parm=P" ++ [0]) [.flag 'l'] =
      some (bytes "L\n") ∧
    scanOutput 64 0 ([0] ++ bytes "author=A" ++ [0, 0] ++ bytes "description=D" ++ [0, 0] ++
        bytes "license=L" ++ [0, 0] ++ bytes "parm=P" ++ [0]) [.field (bytes "license")] =
      some (bytes "license:        L\n") ∧
    scanOutput 64 0 ([0] ++ bytes "author=A" ++ [0, 0] ++ bytes "description=D" ++ [0, 0] ++
        bytes "license=L" ++ [0, 0] ++ bytes "parm=P" ++ [0]) [.flag 'p'] =
      some (bytes "P\n") ∧
    scanOutput 64 0 ([0] ++ bytes "author=A" ++ [0, 0] ++ bytes "description=D" ++ [0, 0] ++
        bytes "license=L" ++ [0, 0] ++ bytes "parm=P" ++ [0]) [.field (bytes "parm")] =
      some (bytes "parm:           P\n") := by
  refine ⟨by decide, by decide, by decide, by decide, by decide, by decide, by decide,
    by decide⟩

/-! ## A module that cannot be opened -/

/-- C12 (as stated, refuted): for the absolute path `/m.ko` that cannot be
opened, `modinfo()` calls the reader once and returns: no error message is
written at all. -/
theorem modinfo_absolute_failure_silent :
    modinfo 64 0 true (bytes "/lib/modules") (fun _ => none) (bytes "/m.ko") (bytes "3.4")
        ⟨none, 2⟩ =
      ⟨[Event.read (bytes "/m.ko")], .done⟩ ∧
    Event.perror ∉ (modinfo 64 0 true (bytes "/lib/modules") (fun _ => none) (bytes "/m.ko")
      (bytes "3.4") ⟨none, 2⟩).events := by
  constructor <;> decide

/-- C12 (amended): when every candidate path fails to open, `modinfo()` returns
without a scan, having shown at most the filename record; for a path that does
not start with `/` it calls `bb_perror_msg("")` once, after the last attempt (a
system error message without the path), and for a path that starts with `/` it
writes no message. -/
theorem modinfo_open_failure (w under : Nat) (flat : Bool) (dir : List Nat)
    (fs : List Nat → Option (List Nat)) (path version : List Nat) (env : modinfo_env)
    (hfail : (firstOpen fs (candidates flat dir path version)).2 = none) :
    modinfo w under flat dir fs path version env =
      ⟨filenameRecord path env ++ (candidates flat dir path version).map Event.read ++
        (if path.head? = some 47 then [] else [Event.perror]), .done⟩ := by
  rw [modinfo_events]
  rw [candidates_eq] at hfail ⊢
  unfold acquire
  by_cases hs : path.head? = some 47
  · simp only [hs, if_true, firstOpen] at hfail ⊢
    cases h0 : fs path with
    | some m => rw [h0] at hfail; simp at hfail
    | none => simp
  · simp only [hs, if_false] at hfail ⊢
    cases h0 : fs path with
    | some m => simp [firstOpen, h0] at hfail
    | none =>
      cases h1 : fs (versionedPath dir version path) with
      | some m => simp [firstOpen, h0, h1] at hfail
      | none =>
        cases flat with
        | false => simp
        | true =>
          cases h2 : fs (flatPath dir path) with
          | some m => simp [firstOpen, h0, h1, h2] at hfail
          | none => simp

/-- Witness of `modinfo_open_failure`: the relative path `m.ko` with no file. -/
theorem modinfo_open_failure_witness :
    (firstOpen (fun _ => none)
        (candidates true (bytes "/lib/modules") (bytes "m.ko") (bytes "3.4"))).2 = none ∧
    modinfo 64 0 true (bytes "/lib/modules") (fun _ => none) (bytes "m.ko") (bytes "3.4")
        ⟨none, 3⟩ =
      ⟨filenameRecord (bytes "m.ko") ⟨none, 3⟩ ++
        (candidates true (bytes "/lib/modules") (bytes "m.ko") (bytes "3.4")).map Event.read ++
        (if (bytes "m.ko").head? = some 47 then [] else [Event.perror]), .done⟩ :=
  ⟨by decide,
    modinfo_open_failure 64 0 true (bytes "/lib/modules") (fun _ => none) (bytes "m.ko")
      (bytes "3.4") ⟨none, 3⟩ (by decide)⟩

/-! ## The literal pass of `modinfo_main` -/

/-- With a dependency index that opens, `modinfo_main` makes the calls of the
index pass and then the calls of the literal pass on what is left of `argv`, all
with the kernel release of `uname`, and returns 0. -/
theorem modinfo_main_with_index (flat : Bool) (fnm : List Nat → List Nat → Bool)
    (modname : List Nat → List Nat) (release : List Nat) (lines : List (List Nat))
    (indexFlat : Option (List (List Nat))) (given : List Opt) (argv : List (List Nat))
    (opts : Nat) (field : Option (List Nat))
    (hopt : getopt32 given = some (opts, field)) (harg : argv ≠ []) :
    modinfo_main flat fnm modname release (some lines) indexFlat given argv =
      some ⟨mkEnv opts field,
        (indexPass fnm modname lines argv).1.map (fun p => (p, release)) ++
          (literalPass (indexPass fnm modname lines argv).2).map (fun a => (a, release)),
        0⟩ := by
  unfold modinfo_main
  rw [hopt]
  simp only [if_neg harg]

theorem size_sub_le (w a b : Nat) (h : b ≤ a) : size_sub w a b ≤ a - b := by
  unfold size_sub
  have hM : 0 < 2 ^ w := Nat.two_pow_pos w
  have hb : b % 2 ^ w < 2 ^ w := Nat.mod_lt _ hM
  have h1 : (a % 2 ^ w + 2 ^ w - b % 2 ^ w) + b % 2 ^ w ≡ a [MOD 2 ^ w] := by
    have e : (a % 2 ^ w + 2 ^ w - b % 2 ^ w) + b % 2 ^ w = a % 2 ^ w + 2 ^ w := by omega
    rw [e]
    unfold Nat.ModEq
    rw [Nat.add_mod_right, Nat.mod_mod]
  have h2 : (a - b) + b % 2 ^ w ≡ a [MOD 2 ^ w] := by
    have e : (a - b) + b = a := by omega
    have := Nat.ModEq.add_left (a - b) (Nat.mod_modEq b (2 ^ w))
    rwa [e] at this
  have h3 : a % 2 ^ w + 2 ^ w - b % 2 ^ w ≡ a - b [MOD 2 ^ w] :=
    Nat.ModEq.add_right_cancel' _ (h1.trans h2.symm)
  unfold Nat.ModEq at h3
  rw [h3]
  exact Nat.mod_le _ _

theorem memchrAux_overrun (c : Nat) (l : List Nat) (n off : Nat)
    (h : memchrAux c l n off = .overrun) : l.length < n := by
  induction l generalizing n off with
  | nil =>
    simp only [memchrAux] at h
    split at h
    · cases h
    · simp only [List.length_nil]; omega
  | cons b rest ih =>
    simp only [memchrAux] at h
    split at h
    · cases h
    · split at h
      · cases h
      · have := ih _ _ h
        simp only [List.length_cons]
        omega

theorem memchr_no_overrun (w : Nat) (buf : List Nat) (c off : Nat) (h : off ≤ buf.length) :
    memchr (image buf) off c (size_sub w buf.length off) ≠ .overrun := by
  intro ho
  have h1 := memchrAux_overrun _ _ _ _ ho
  have h2 := size_sub_le w buf.length off h
  rw [List.length_drop] at h1
  have h3 : (image buf).length = buf.length + 1 := by simp [image]
  omega

theorem accepted_occurs (under : Nat) (buf pat : List Nat) (i : Nat)
    (ht : acceptedAt under buf pat i) : (pat ++ [61]) <:+: buf := by
  obtain ⟨h2, h3, -⟩ := ht
  have hlt : i + pat.length < buf.length := getElem?_lt_of_eq_some h3
  refine ⟨buf.take i, buf.drop (i + pat.length + 1), ?_⟩
  have e1 : buf.drop i = (buf.drop i).take pat.length ++ (buf.drop i).drop pat.length :=
    (List.take_append_drop _ _).symm
  rw [h2, List.drop_drop] at e1
  have e2 : buf.drop (i + pat.length) = buf[i + pat.length] :: buf.drop (i + pat.length + 1) :=
    List.drop_eq_getElem_cons hlt
  have e3 : buf[i + pat.length] = 61 := by
    rw [List.getElem?_eq_getElem hlt] at h3
    exact Option.some.inj h3
  rw [e2, e3] at e1
  calc buf.take i ++ (pat ++ [61]) ++ buf.drop (i + pat.length + 1)
      = buf.take i ++ (pat ++ 61 :: buf.drop (i + pat.length + 1)) := by simp
    _ = buf.take i ++ buf.drop i := by rw [← e1]
    _ = buf := List.take_append_drop _ _

theorem scanFrom_absent (w under : Nat) (buf pat : List Nat) (hno : ¬ (pat ++ [61]) <:+: buf) :
    ∀ d off, buf.length - off = d → off ≤ buf.length →
      (scanFrom w under buf pat off).out = [] ∧ (scanFrom w under buf pat off).outcome = .done := by
  intro d
  induction d using Nat.strong_induction_on with
  | _ d ih =>
    intro off hd hoff
    rw [scanFrom_step w under buf pat off (by omega)]
    cases hm : memchr (image buf) off (pat.headD 0) (size_sub w buf.length off) with
    | overrun => exact absurd hm (memchr_no_overrun w buf _ off hoff)
    | null =>
      have hs : scanStep w under buf pat off = .stop .done := by
        unfold scanStep
        rw [hm]
      rw [hs]
      exact ⟨rfl, rfl⟩
    | hit q =>
      obtain ⟨hq1, hq2, -, -⟩ := memchr_hit _ _ _ _ _ hm
      have hsz := size_sub_le w buf.length off hoff
      rcases scanStep_hit_cases w under buf pat off q hm with hn | ⟨v, off1, he⟩
      · rw [hn]
        exact ih (buf.length - (q + 1)) (by omega) (q + 1) rfl (by omega)
      · obtain ⟨-, e2, -, -, -⟩ := scanStep_emit w under buf pat off q off1 v he
        exact absurd (accepted_occurs under buf pat q e2) hno

/-- C15: if the pattern followed by `=` occurs nowhere in the buffer, the scan
of the pattern displays nothing and ends regularly, with `memchr` returning NULL. -/
theorem scan_absent_pattern (w under : Nat) (buf pat : List Nat)
    (hno : ¬ (pat ++ [61]) <:+: buf) :
    (scan w under buf pat).out = [] ∧ (scan w under buf pat).outcome = .done :=
  scanFrom_absent w under buf pat hno _ 0 rfl (Nat.zero_le _)

/-- Witness of `scan_absent_pattern`: the image `\0author=me\0` scanned for
`license`. -/
theorem scan_absent_pattern_witness :
    (¬ (bytes "license" ++ [61]) <:+: ([0] ++ bytes "author=me" ++ [0])) ∧
    (scan 64 0 ([0] ++ bytes "author=me" ++ [0]) (bytes "license")).out = [] ∧
      (scan 64 0 ([0] ++ bytes "author=me" ++ [0]) (bytes "license")).outcome = .done :=
  ⟨by decide, scan_absent_pattern 64 0 ([0] ++ bytes "author=me" ++ [0]) (bytes "license")
    (by decide)⟩

/-! ## No tag is missed -/

theorem scanFrom_covers (w under : Nat) (buf pat : List Nat) (i : Nat)
    (hw : buf.length < 2 ^ w) (hpat : pat ≠ []) (ht : tagAt buf pat i) :
    ∀ d c, i - c = d → c ≤ i →
      (i, valueAt buf pat i) ∈ (scanFrom w under buf pat c).out ∨
        ∃ q v, (q, v) ∈ (scanFrom w under buf pat c).out ∧ q < i ∧
          i ≤ q + pat.length + 1 + v.length := by
  obtain ⟨hhead, hilt⟩ := tagAt_head buf pat i hpat ht
  intro d
  induction d using Nat.strong_induction_on with
  | _ d ih =>
    intro c hd hc
    have hsz : size_sub w buf.length c = buf.length - c := size_sub_of_le w _ _ hw (by omega)
    obtain ⟨q, hq, hq1, hq2⟩ := memchr_find (image buf) c (pat.headD 0)
      (size_sub w buf.length c) i hc (by rw [hsz]; omega) hhead
    rw [scanFrom_step w under buf pat c (by omega)]
    rcases scanStep_hit_cases w under buf pat c q hq with hn | ⟨v, off1, he⟩
    · rw [hn]
      have hqi : q ≠ i := by
        intro h
        subst h
        rw [scanStep_hit_tag w under buf pat c q hq ht] at hn
        cases hn
      exact ih (i - (q + 1)) (by omega) (q + 1) rfl (by omega)
    · rw [he]
      obtain ⟨-, e2, e3, e4, -⟩ := scanStep_emit w under buf pat c q off1 v he
      by_cases hqi : q = i
      · subst hqi
        left
        rw [e3]
        exact List.mem_cons_self _ _
      · have hlt : q < i := by omega
        by_cases hin : i < off1
        · right
          exact ⟨q, v, List.mem_cons_self _ _, hlt, by omega⟩
        · rcases ih (i - off1) (by omega) off1 rfl (by omega) with h | ⟨q1, v1, h1, h2, h3⟩
          · left
            exact List.mem_cons_of_mem _ h
          · right
            exact ⟨q1, v1, List.mem_cons_of_mem _ h1, h2, h3⟩

theorem tag_after_pattern (buf pat : List Nat) (q i : Nat) (hq : tagAt buf pat q)
    (hi : tagAt buf pat i) (hlt : q < i) (hlow : ∀ c ∈ pat, c &&& 0x7F ≠ 0) :
    q + pat.length + 1 < i := by
  obtain ⟨-, q2, q3, -⟩ := hq
  obtain ⟨-, -, -, b, hb1, hb2⟩ := hi
  by_contra hge
  by_cases he : i - 1 = q + pat.length
  · rw [he, q3] at hb1
    have : b = 61 := (Option.some.inj hb1).symm
    subst this
    exact absurd hb2 (by decide)
  · have hk : i - 1 - q < pat.length := by omega
    have h4 : pat[i - 1 - q]? = some b := by
      rw [← q2, List.getElem?_take_of_lt hk, List.getElem?_drop,
        show q + (i - 1 - q) = i - 1 by omega]
      exact hb1
    exact hlow b (List.getElem?_mem h4) hb2

/-- C17 (as stated, refuted): in the image `\0=\x80=\x80=x\0` scanned for the
pattern `=\x80`, offset 3 is a tag (pattern, `=` after it, boundary byte `\x80`
before it), but only the record at offset 1 is emitted, and offset 3 is neither
emitted nor inside the value span 4..7 of that record: it is the `=` of it. -/
theorem scan_tag_overlapping_record :
    tagAt [0, 61, 128, 61, 128, 61, 120, 0] [61, 128] 3 ∧
      (scan 64 0 [0, 61, 128, 61, 128, 61, 120, 0] [61, 128]).out = [(1, [128, 61, 120])] ∧
      ∀ qv ∈ (scan 64 0 [0, 61, 128, 61, 128, 61, 120, 0] [61, 128]).out,
        qv.1 ≠ 3 ∧ ¬ (qv.1 + ([61, 128] : List Nat).length + 1 ≤ 3 ∧
          3 ≤ qv.1 + ([61, 128] : List Nat).length + 1 + qv.2.length) := by
  refine ⟨by decide, by decide, by decide⟩

/-- C17 (amended): for a buffer that does not itself start with the pattern and
`=`, every tag of the non-empty pattern (offset `i ≥ 1`, pattern at `i`, `=` after
it, boundary byte before it) is either emitted with its value or lies behind the
match offset of a record emitted earlier and not behind the terminating NUL of
that record; when no byte of the pattern has its low seven bits zero, it then lies
inside the value of that record. -/
theorem scan_complete (w under : Nat) (buf pat : List Nat) (i : Nat)
    (hw : buf.length < 2 ^ w) (hpat : pat ≠ []) (hstart : ¬ (pat ++ [61]) <+: buf)
    (ht : tagAt buf pat i) :
    (i, valueAt buf pat i) ∈ (scan w under buf pat).out ∨
      ∃ q v, (q, v) ∈ (scan w under buf pat).out ∧ q < i ∧ i ≤ q + pat.length + 1 + v.length ∧
        ((∀ c ∈ pat, c &&& 0x7F ≠ 0) → q + pat.length + 1 < i) := by
  rcases scanFrom_covers w under buf pat i hw hpat ht i 0 rfl (Nat.zero_le _) with
    h | ⟨q, v, h1, h2, h3⟩
  · exact Or.inl h
  · right
    refine ⟨q, v, h1, h2, h3, fun hlow => ?_⟩
    have hq := tagAt_of_accepted_not_start under buf pat q
      (scanLoop_out_sound w under buf pat _ 0 q v h1).1 hstart
    exact tag_after_pattern buf pat q i hq ht h2 hlow

/-- Witness of `scan_complete`: the tag at offset 5 of `\0a=x\x80a=y\0`, which
lies inside the value of the record at offset 1. -/
theorem scan_complete_witness :
    ([0, 97, 61, 120, 128, 97, 61, 121, 0] : List Nat).length < 2 ^ 64 ∧
    ([97] : List Nat) ≠ [] ∧
    (¬ ([97] ++ [61]) <+: ([0, 97, 61, 120, 128, 97, 61, 121, 0] : List Nat)) ∧
    tagAt [0, 97, 61, 120, 128, 97, 61, 121, 0] [97] 5 ∧
    ((5, valueAt [0, 97, 61, 120, 128, 97, 61, 121, 0] [97] 5) ∈
        (scan 64 0 [0, 97, 61, 120, 128, 97, 61, 121, 0] [97]).out ∨
      ∃ q v, (q, v) ∈ (scan 64 0 [0, 97, 61, 120, 128, 97, 61, 121, 0] [97]).out ∧ q < 5 ∧
        5 ≤ q + ([97] : List Nat).length + 1 + v.length ∧
        ((∀ c ∈ ([97] : List Nat), c &&& 0x7F ≠ 0) →
          q + ([97] : List Nat).length + 1 < 5)) :=
  ⟨by decide, by decide, by decide, by decide,
    scan_complete 64 0 [0, 97, 61, 120, 128, 97, 61, 121, 0] [97] 5 (by decide) (by decide)
      (by decide) (by decide)⟩

/-! ## Termination of the scan loop -/

theorem scanStep_next_hit (w under : Nat) (buf pat : List Nat) (off off1 : Nat)
    (h : scanStep w under buf pat off = .next off1) :
    ∃ i, memchr (image buf) off (pat.headD 0) (size_sub w buf.length off) = .hit i ∧
      off ≤ i ∧ off1 = i + 1 := by
  cases hm : memchr (image buf) off (pat.headD 0) (size_sub w buf.length off) with
  | overrun => unfold scanStep at h; rw [hm] at h; cases h
  | null => unfold scanStep at h; rw [hm] at h; cases h
  | hit q =>
    obtain ⟨hq1, -, -, -⟩ := memchr_hit _ _ _ _ _ hm
    refine ⟨q, rfl, hq1, ?_⟩
    rcases scanStep_hit_cases w under buf pat off q hm with hn | ⟨v, o, he⟩
    · rw [hn] at h
      exact (Step.next.inj h).symm
    · rw [he] at h; cases h

theorem scanLoop_cursors_length (w under : Nat) (buf pat : List Nat) (fuel off : Nat) :
    (scanLoop w under buf pat fuel off).cursors.length ≤ fuel := by
  induction fuel generalizing off with
  | zero => simp [scanLoop]
  | succ f ih =>
    rw [scanLoop]
    cases hs : scanStep w under buf pat off with
    | stop o => simp
    | next off1 =>
      have := ih off1
      simp only [List.length_cons]
      omega
    | emit i v off1 =>
      have := ih off1
      simp only [List.length_cons]
      omega

theorem scanFrom_cursors (w under : Nat) (buf pat : List Nat) :
    ∀ d c, buf.length + 1 - c = d → c ≤ buf.length + 1 →
      (∀ x ∈ (scanFrom w under buf pat c).cursors, c ≤ x) ∧
        (scanFrom w under buf pat c).cursors.Pairwise (fun a b => a < b) := by
  intro d
  induction d using Nat.strong_induction_on with
  | _ d ih =>
    intro c hd hc
    rw [scanFrom_step w under buf pat c hc]
    cases hs : scanStep w under buf pat c with
    | stop o => simp
    | next off1 =>
      obtain ⟨hb1, hb2⟩ := scanStep_next w under buf pat c off1 hs
      obtain ⟨r1, r2⟩ := ih (buf.length + 1 - off1) (by omega) off1 rfl hb2
      refine ⟨?_, ?_⟩
      · intro x hx
        simp only [List.mem_cons] at hx
        rcases hx with rfl | hx
        · exact le_refl _
        · have := r1 x hx; omega
      · simp only [List.pairwise_cons]
        exact ⟨fun x hx => by have := r1 x hx; omega, r2⟩
    | emit i v off1 =>
      obtain ⟨hb1, hb2⟩ := scanStep_emit_bound w under buf pat c i off1 v hs
      obtain ⟨r1, r2⟩ := ih (buf.length + 1 - off1) (by omega) off1 rfl hb2
      refine ⟨?_, ?_⟩
      · intro x hx
        simp only [List.mem_cons] at hx
        rcases hx with rfl | hx
        · exact le_refl _
        · have := r1 x hx; omega
      · simp only [List.pairwise_cons]
        exact ⟨fun x hx => by have := r1 x hx; omega, r2⟩

/-- The iterations of the scan loop up to the first call of `memchr` that leaves
the block, for every buffer and every pattern, the empty one included: there are
at most `len + 2` of them; their cursor offsets grow strictly; after a rejected
candidate at offset `i` the cursor is `i + 1`, after an accepted one it is just
behind the NUL that ends the value; and the loop ends when `memchr` returns NULL. -/
theorem scan_terminates (w under : Nat) (buf pat : List Nat) :
    (scan w under buf pat).outcome ≠ .fuel ∧
      (scan w under buf pat).cursors.length ≤ buf.length + 2 ∧
      (scan w under buf pat).cursors.Pairwise (fun a b => a < b) ∧
      (∀ off off1, scanStep w under buf pat off = .next off1 →
        ∃ i, memchr (image buf) off (pat.headD 0) (size_sub w buf.length off) = .hit i ∧
          off ≤ i ∧ off1 = i + 1) ∧
      (∀ off i v off1, scanStep w under buf pat off = .emit i v off1 →
        off ≤ i ∧ off1 = i + pat.length + 1 + v.length + 1 ∧
          (image buf)[off1 - 1]? = some 0) ∧
      (∀ off, memchr (image buf) off (pat.headD 0) (size_sub w buf.length off) = .null →
        scanStep w under buf pat off = .stop .done) := by
  refine ⟨scanFrom_outcome_ne_fuel w under buf pat _ 0 rfl (Nat.zero_le _),
    scanLoop_cursors_length w under buf pat _ 0,
    (scanFrom_cursors w under buf pat _ 0 rfl (Nat.zero_le _)).2,
    fun off off1 h => scanStep_next_hit w under buf pat off off1 h, ?_, ?_⟩
  · intro off i v off1 h
    obtain ⟨h1, -, h3, h4, h5⟩ := scanStep_emit w under buf pat off i off1 v h
    refine ⟨h1, h4, ?_⟩
    have ht := valueAt_terminated buf pat i (by omega)
    rw [← h3] at ht
    rw [h4, Nat.add_sub_cancel]
    exact ht
  · intro off h
    unfold scanStep
    rw [h]

/-! ## Images that end with a NUL byte, and images that do not -/

theorem scanStep_stop (w under : Nat) (buf pat : List Nat) (off : Nat) (o : Outcome)
    (h : scanStep w under buf pat off = .stop o) :
    (memchr (image buf) off (pat.headD 0) (size_sub w buf.length off) = .null ∧ o = .done) ∨
      (memchr (image buf) off (pat.headD 0) (size_sub w buf.length off) = .overrun ∧
        o = .overrun) := by
  cases hm : memchr (image buf) off (pat.headD 0) (size_sub w buf.length off) with
  | overrun =>
    unfold scanStep at h
    rw [hm] at h
    exact Or.inr ⟨rfl, (Step.stop.inj h).symm⟩
  | null =>
    unfold scanStep at h
    rw [hm] at h
    exact Or.inl ⟨rfl, (Step.stop.inj h).symm⟩
  | hit q =>
    rcases scanStep_hit_cases w under buf pat off q hm with hn | ⟨v, o1, he⟩
    · rw [hn] at h; cases h
    · rw [he] at h; cases h

theorem valueAt_before_last_nul (buf pat : List Nat) (i : Nat)
    (hlast : buf.getLast? = some 0) (h61 : buf[i + pat.length]? = some 61) :
    i + pat.length + 1 + (valueAt buf pat i).length + 1 ≤ buf.length := by
  have hlt : i + pat.length < buf.length := getElem?_lt_of_eq_some h61
  rw [List.getLast?_eq_getElem?] at hlast
  have hne : i + pat.length ≠ buf.length - 1 := by
    intro he
    rw [he, hlast] at h61
    exact absurd (Option.some.inj h61) (by decide)
  have hk : (buf.drop (i + pat.length + 1))[buf.length - 1 - (i + pat.length + 1)]? = some 0 := by
    rw [List.getElem?_drop,
      show i + pat.length + 1 + (buf.length - 1 - (i + pat.length + 1)) = buf.length - 1 by omega]
    exact hlast
  have := takeWhile_length_le_of_nul _ _ hk
  unfold valueAt
  omega

theorem scanFrom_terminated (w under : Nat) (buf pat : List Nat)
    (hlast : buf.getLast? = some 0) :
    ∀ d c, buf.length - c = d → c ≤ buf.length →
      (scanFrom w under buf pat c).outcome = .done ∧
        ∀ x ∈ (scanFrom w under buf pat c).cursors, x ≤ buf.length := by
  intro d
  induction d using Nat.strong_induction_on with
  | _ d ih =>
    intro c hd hc
    rw [scanFrom_step w under buf pat c (by omega)]
    cases hs : scanStep w under buf pat c with
    | stop o =>
      rcases scanStep_stop w under buf pat c o hs with ⟨-, ho⟩ | ⟨hm, -⟩
      · subst ho
        exact ⟨rfl, fun x hx => by simp only [List.mem_singleton] at hx; omega⟩
      · exact absurd hm (memchr_no_overrun w buf _ c hc)
    | next off1 =>
      obtain ⟨q, hq, hq1, hq2⟩ := scanStep_next_hit w under buf pat c off1 hs
      obtain ⟨-, hlt, -, -⟩ := memchr_hit _ _ _ _ _ hq
      have hsz := size_sub_le w buf.length c hc
      obtain ⟨r1, r2⟩ := ih (buf.length - off1) (by omega) off1 rfl (by omega)
      refine ⟨r1, fun x hx => ?_⟩
      simp only [List.mem_cons] at hx
      rcases hx with rfl | hx
      · exact hc
      · exact r2 x hx
    | emit i v off1 =>
      obtain ⟨e1, e2, e3, e4, -⟩ := scanStep_emit w under buf pat c i off1 v hs
      have hv := valueAt_before_last_nul buf pat i hlast e2.2.1
      rw [← e3] at hv
      obtain ⟨r1, r2⟩ := ih (buf.length - off1) (by omega) off1 rfl (by omega)
      refine ⟨r1, fun x hx => ?_⟩
      simp only [List.mem_cons] at hx
      rcases hx with rfl | hx
      · exact hc
      · exact r2 x hx

/-- For an image whose last byte is NUL the scan of every pattern stays inside
the image: every cursor offset is at most `len`, no call of `memchr` leaves the
block, and the loop ends with `memchr` returning NULL. -/
theorem scan_terminated_image (w under : Nat) (buf pat : List Nat)
    (hlast : buf.getLast? = some 0) :
    (scan w under buf pat).outcome = .done ∧
      (∀ x ∈ (scan w under buf pat).cursors, x ≤ buf.length) ∧
      (scan w under buf pat).cursors.Pairwise (fun a b => a < b) :=
  ⟨(scanFrom_terminated w under buf pat hlast _ 0 rfl (Nat.zero_le _)).1,
    (scanFrom_terminated w under buf pat hlast _ 0 rfl (Nat.zero_le _)).2,
    (scanFrom_cursors w under buf pat _ 0 rfl (Nat.zero_le _)).2⟩

theorem tagLoop_terminated (w under : Nat) (buf : List Nat) (field : Option (List Nat))
    (tags : Nat) (hlast : buf.getLast? = some 0)
    (hfield : field = none → (1 <<< 12) &&& tags = 0) :
    ∀ fuel j, 1 ≤ j → j ≤ 13 → 14 ≤ fuel + j →
      (tagLoop w under buf field tags fuel j).outcome = .done := by
  intro fuel
  induction fuel with
  | zero => intro j _ h13 h14; omega
  | succ f ih =>
    intro j h1 h13 h14
    rw [tagLoop]
    by_cases hj : (1 <<< j) &&& (OPT_TAGS + OPT_F) = 0
    · rw [if_pos hj]
    · rw [if_neg hj]
      have hj12 : j ≤ 12 := by
        by_contra hgt
        have : j = 13 := by omega
        subst this
        exact hj (by decide)
      by_cases hb : (1 <<< j) &&& tags = 0
      · rw [if_pos hb]
        exact ih (j + 1) (by omega) (by omega) (by omega)
      · rw [if_neg hb]
        have hp : ∃ p, (if (1 <<< j) &&& OPT_TAGS ≠ 0 then shortcuts[j]? else field) = some p := by
          by_cases h12 : j = 12
          · subst h12
            cases field with
            | none => exact absurd (hfield rfl) hb
            | some f => exact ⟨f, if_neg (by decide)⟩
          · have h11 : j ≤ 11 := by omega
            have hs : (1 <<< j) &&& OPT_TAGS ≠ 0 := by
              interval_cases j <;> decide
            rw [if_pos hs]
            interval_cases j <;> exact ⟨_, rfl⟩
        obtain ⟨p, hp⟩ := hp
        simp only [hp]
        rw [(scan_terminated_image w under buf p hlast).1]
        exact ih (j + 1) (by omega) (by omega) (by omega)

/-- For a module image whose last byte is NUL, the calls of `display` after the
filename record are exactly, field by field, the records of the selected
shortcuts in table order (license, author, ..., firmware), each field with all
its values in buffer order, followed by the records of the free-form field when
one is set. -/
theorem modinfo_record_order_terminated (w under : Nat) (flat : Bool) (dir : List Nat)
    (fs : List Nat → Option (List Nat)) (path version : List Nat) (env : modinfo_env)
    (buf : List Nat) (hopen : (acquire flat dir fs path version).2 = some buf)
    (hlast : buf.getLast? = some 0)
    (hfield : env.field = none → (1 <<< 12) &&& env.tags = 0) :
    displays (modinfo w under flat dir fs path version env).events =
        filenameRecord path env ++ fieldRecords w under buf env ∧
      (modinfo w under flat dir fs path version env).outcome = .done := by
  obtain ⟨-, h2, -⟩ := acquire_spec flat dir fs path version
  have hf := filenameRecord_all_display path env
  have ht := tagLoop_all_display w under buf env.field (localTags env) 13 1
  obtain ⟨-, hs2⟩ := tagLoop_spec w under buf env
  have hdone := tagLoop_terminated w under buf env.field (localTags env) hlast
    (by
      intro hn
      unfold localTags
      rw [hn]
      exact hfield hn)
    13 1 (by omega) (by omega) (by omega)
  rw [modinfo_events]
  cases ha : acquire flat dir fs path version with
  | mk tried m =>
    rw [ha] at h2 hopen
    simp only at hopen
    subst hopen
    have ht1 : ∀ e ∈ fieldRecords w under buf env, isDisplay e = true := by
      rw [← hs2 hdone]
      exact ht
    simp only [hs2 hdone, displays_append, displays_of_all _ hf, displays_of_all _ ht1, h2,
      List.append_nil, hdone, and_self]

/-- C4: a module file that ends inside the value of its license tag
(`\0author=me\0\0license=GPL`, no NUL after `GPL`), asked for license and author:
the records to emit are `license: GPL` and `author: me`, but `modinfo()` shows
the license record only.  The scan of `license`, the first field of the table,
leaves the block after its value (`memchr` is called at offset `len + 1`), and no
later field is scanned; for 64-bit and for 32-bit `size_t`. -/
theorem modinfo_truncated_image_order :
    (acquire true (bytes "/lib/modules")
        (fun p => if p = bytes "m.ko" then
          some ([0] ++ bytes "author=me" ++ [0, 0] ++ bytes "license=GPL") else none)
        (bytes "m.ko") (bytes "3.4")).2 =
      some ([0] ++ bytes "author=me" ++ [0, 0] ++ bytes "license=GPL") ∧
    fieldRecords 64 0 ([0] ++ bytes "author=me" ++ [0, 0] ++ bytes "license=GPL") ⟨none, 6⟩ =
      [Event.display (bytes "GPL") (bytes "license") true,
        Event.display (bytes "me") (bytes "author") true] ∧
    displays (modinfo 64 0 true (bytes "/lib/modules")
        (fun p => if p = bytes "m.ko" then
          some ([0] ++ bytes "author=me" ++ [0, 0] ++ bytes "license=GPL") else none)
        (bytes "m.ko") (bytes "3.4") ⟨none, 6⟩).events =
      [Event.display (bytes "GPL") (bytes "license") true] ∧
    (modinfo 64 0 true (bytes "/lib/modules")
        (fun p => if p = bytes "m.ko" then
          some ([0] ++ bytes "author=me" ++ [0, 0] ++ bytes "license=GPL") else none)
        (bytes "m.ko") (bytes "3.4") ⟨none, 6⟩).outcome = .overrun ∧
    displays (modinfo 32 0 true (bytes "/lib/modules")
        (fun p => if p = bytes "m.ko" then
          some ([0] ++ bytes "author=me" ++ [0, 0] ++ bytes "license=GPL") else none)
        (bytes "m.ko") (bytes "3.4") ⟨none, 6⟩).events =
      [Event.display (bytes "GPL") (bytes "license") true] ∧
    (scan 64 0 ([0] ++ bytes "author=me" ++ [0, 0] ++ bytes "license=GPL")
        (bytes "license")).cursors = [0, 24] ∧
    ([0] ++ bytes "author=me" ++ [0, 0] ++ bytes "license=GPL" : List Nat).length = 23 := by
  refine ⟨by decide, by decide, by decide, by decide, by decide, by decide, by decide⟩

end Modinfo
